import Mathlib

/-!
Verification of the pest grammar VM (`vm/src/lib.rs`).

The evaluator (`Vm::parse_rule`, `Vm::parse_expr`, `Vm::repeat`, `Vm::skip`)
and the escape decoder (`unescape`) are translated from the source.  The
`pest` crate's `Position` / `ParserState` machinery is not part of the
sources under verification; those primitives are modelled from the spec:
the cursor/context contract of spec sections 3 and 6 (immutable positions,
match primitives that fail leaving the position unchanged, scoped
sequence/lookahead wrappers that roll back captures and tokens on failure,
a rule-entry wrapper that emits a token unless the mode is Atomic or a
lookahead is active).  Rust panics (`expect`, `panic!`) are modelled as a
separate fatal result channel; a fuel parameter makes the interpreter
total, with fuel exhaustion also reported on the fatal channel.
-/

namespace PestVm

/-- Atomicity mode, as in `pest::Atomicity`. -/
inductive Atomicity where
  | NonAtomic
  | Atomic
  | CompoundAtomic
deriving DecidableEq, Repr

/-- Rule kinds, as in `pest_meta::ast::RuleType`. -/
inductive RuleType where
  | Normal
  | Silent
  | Atomic
  | CompoundAtomic
  | NonAtomic
deriving DecidableEq, Repr

/-- Expression trees, as in `pest_meta::ast::Expr`.  Literal payloads are
kept as raw (undecoded) character lists, exactly as the Rust AST keeps the
raw grammar text. -/
inductive Expr where
  | Str (s : List Char)
  | Insens (s : List Char)
  | Range (lo hi : List Char)
  | Ident (name : String)
  | PosPred (e : Expr)
  | NegPred (e : Expr)
  | Seq (l r : Expr)
  | Choice (l r : Expr)
  | Opt (e : Expr)
  | Rep (e : Expr)
  | RepOnce (e : Expr)
  | RepExact (e : Expr) (n : Nat)
  | RepMin (e : Expr) (n : Nat)
  | RepMax (e : Expr) (n : Nat)
  | RepMinMax (e : Expr) (mn mx : Nat)
  | Push (e : Expr)
  | SkipE (ss : List (List Char))
deriving DecidableEq, Repr

/-- A named rule, as in `pest_meta::ast::Rule`. -/
structure Rule where
  name : String
  ty : RuleType
  expr : Expr
deriving DecidableEq, Repr

/-- Rule lookup.  `Vm::new` collects the rules into a `HashMap` keyed by
name; for duplicate names the last insertion wins, which this recursion
reproduces. -/
def vmGet (rules : List Rule) (name : String) : Option Rule :=
  match rules with
  | [] => none
  | r :: rest =>
    match vmGet rest name with
    | some r2 => some r2
    | none => if r.name = name then some r else none

/-- A matched span: start and end offsets into the input (`Position::span`). -/
structure Span where
  start : Nat
  stop : Nat
deriving DecidableEq, Repr

/-- The text a span denotes (`Span::as_str`). -/
def spanStr (input : List Char) (sp : Span) : List Char :=
  (input.drop sp.start).take (sp.stop - sp.start)

/-- Queued token pieces (`pest`'s start/end token queue). -/
inductive QToken where
  | tokStart (name : String) (pos : Nat)
  | tokEnd (name : String) (pos : Nat)
deriving DecidableEq, Repr

/-- The name carried by a queued token. -/
def QToken.name : QToken → String
  | QToken.tokStart n _ => n
  | QToken.tokEnd n _ => n

/-- Modelled from the spec: the mutable per-parse context (spec section 6):
token queue, capture stack (top at the head), current atomicity mode and
an in-lookahead flag that suppresses token emission. -/
structure ParserState where
  queue : List QToken
  stack : List Span
  atomicity : Atomicity
  lookahead : Bool
deriving DecidableEq, Repr

/-- The initial context of a parse (`pest::state`). -/
def initState : ParserState :=
  { queue := [], stack := [], atomicity := Atomicity.NonAtomic, lookahead := false }

/-- Result of a match attempt: success or ordinary failure carry a
position; `fatal` models a Rust panic (and fuel exhaustion). -/
inductive Res where
  | ok (p : Nat)
  | err (p : Nat)
  | fatal (msg : String)
deriving DecidableEq, Repr

/-- A result paired with the context it leaves behind. -/
abbrev RP := Res × ParserState

/-! ### Position primitives, modelled from the spec (section 6):
each either advances and succeeds or fails leaving the position unchanged. -/

/-- Modelled from the spec: `Position::match_string`. -/
def matchString (input : List Char) (pos : Nat) (s : List Char) : Res :=
  if (input.drop pos).take s.length = s then Res.ok (pos + s.length) else Res.err pos

/-- Modelled from the spec: `Position::match_insensitive` (per-character
lowercasing on both sides). -/
def matchInsensitive (input : List Char) (pos : Nat) (s : List Char) : Res :=
  if ((input.drop pos).take s.length).map Char.toLower = s.map Char.toLower then
    Res.ok (pos + s.length)
  else Res.err pos

/-- Modelled from the spec: `Position::match_range`, an inclusive
code-point range matcher consuming one code point. -/
def matchRange (input : List Char) (pos : Nat) (lo hi : Char) : Res :=
  match input.drop pos with
  | c :: _ => if lo ≤ c ∧ c ≤ hi then Res.ok (pos + 1) else Res.err pos
  | [] => Res.err pos

/-- Modelled from the spec: `Position::skip`, advancing `n` code points. -/
def posSkip (input : List Char) (pos : Nat) (n : Nat) : Res :=
  if pos + n ≤ input.length then Res.ok (pos + n) else Res.err pos

/-- Modelled from the spec: `Position::at_end`. -/
def atEnd (input : List Char) (pos : Nat) : Res :=
  if pos = input.length then Res.ok pos else Res.err pos

/-- Modelled from the spec: `Position::at_start`. -/
def atStart (pos : Nat) : Res :=
  if pos = 0 then Res.ok pos else Res.err pos

/-- Search helper for `skip_until`: the first offset at or after `pos`
where `s` occurs, scanning with an explicit budget. -/
def findFromAux (input s : List Char) : Nat → Nat → Option Nat
  | 0, _ => none
  | k + 1, pos =>
    if (input.drop pos).take s.length = s then some pos
    else findFromAux input s k (pos + 1)

/-- Modelled from the spec: `advanceToEarliestOf` for a single literal —
the earliest occurrence of `s` at or after `pos`. -/
def findFrom (input s : List Char) (pos : Nat) : Option Nat :=
  findFromAux input s (input.length + 1 - pos) pos

/-- Modelled from the spec: `Position::skip_until`, failing with the
position unchanged when the literal never occurs. -/
def skipUntilRes (input : List Char) (pos : Nat) (s : List Char) : Res :=
  match findFrom input s pos with
  | some i => Res.ok i
  | none => Res.err pos

/-! ### The escape decoder, translated from `unescape` in `vm/src/lib.rs`. -/

/-- Value of one hex digit (`from_str_radix` accepts both cases). -/
def hexVal (c : Char) : Option Nat :=
  if '0' ≤ c ∧ c ≤ '9' then some (c.toNat - '0'.toNat)
  else if 'a' ≤ c ∧ c ≤ 'f' then some (c.toNat - 'a'.toNat + 10)
  else if 'A' ≤ c ∧ c ≤ 'F' then some (c.toNat - 'A'.toNat + 10)
  else none

/-- Accumulating hex parser. -/
def parseHexAux (acc : Nat) : List Char → Option Nat
  | [] => some acc
  | c :: t =>
    match hexVal c with
    | some v => parseHexAux (16 * acc + v) t
    | none => none

/-- `u8::from_str_radix` / `u32::from_str_radix` with radix 16: every
character must be a hex digit and the string must be non-empty. -/
def parseHex (l : List Char) : Option Nat :=
  match l with
  | [] => none
  | _ => parseHexAux 0 l

/-- `char::from_u32`: `some` exactly on valid Unicode scalar values. -/
def charFromU32 (v : Nat) : Option Char :=
  if v < 0xd800 ∨ (0xe000 ≤ v ∧ v < 0x110000) then
    some (Char.ofNat v)
  else none

/-- Split a list at its first closing brace: the characters before it and
the remainder after it (`take_while` plus consuming the brace itself). -/
def splitBrace : List Char → Option (List Char × List Char)
  | [] => none
  | c :: t =>
    if c = '\x7d' then some ([], t)
    else
      match splitBrace t with
      | some (ds, rest) => some (c :: ds, rest)
      | none => none

/-- Body of `unescape`, with an explicit budget so the recursion is
structural; `unescape` always supplies a sufficient budget. -/
def unescapeAux : Nat → List Char → Option (List Char)
  | _, [] => some []
  | 0, _ :: _ => none
  | k + 1, c :: t =>
    if c = '\\' then
      match t with
      | [] => none
      | e :: t1 =>
        if e = '\x22' then Option.map (List.cons '\x22') (unescapeAux k t1)
        else if e = '\\' then Option.map (List.cons '\\') (unescapeAux k t1)
        else if e = 'r' then Option.map (List.cons '\r') (unescapeAux k t1)
        else if e = 'n' then Option.map (List.cons '\n') (unescapeAux k t1)
        else if e = 't' then Option.map (List.cons '\t') (unescapeAux k t1)
        else if e = '0' then Option.map (List.cons (Char.ofNat 0)) (unescapeAux k t1)
        else if e = '\x27' then Option.map (List.cons '\x27') (unescapeAux k t1)
        else if e = 'x' then
          match t1 with
          | h1 :: h2 :: t2 =>
            match parseHex [h1, h2] with
            | some v => Option.map (List.cons (Char.ofNat v)) (unescapeAux k t2)
            | none => none
          | _ => none
        else if e = 'u' then
          match t1 with
          | b :: t2 =>
            if b = '\x7b' then
              match splitBrace t2 with
              | some (ds, rest) =>
                if ds.length < 2 ∨ 6 < ds.length then none
                else
                  match parseHex ds with
                  | some v =>
                    match charFromU32 v with
                    | some ch => Option.map (List.cons ch) (unescapeAux k rest)
                    | none => none
                  | none => none
              | none => none
            else none
          | [] => none
        else none
    else Option.map (List.cons c) (unescapeAux k t)

/-- `unescape` from `vm/src/lib.rs`: decode the raw text of a grammar
literal, or fail. -/
def unescape (s : List Char) : Option (List Char) :=
  unescapeAux s.length s

/-! ### Context combinators, modelled from the spec (section 6). -/

/-- Modelled from the spec: `ParserState::atomic` — run the body with the
given atomicity mode and restore the caller's mode afterwards. -/
def stAtomic (a : Atomicity) (f : ParserState → RP) (st : ParserState) : RP :=
  let saved := st.atomicity
  let x := f { st with atomicity := a }
  (x.1, { x.2 with atomicity := saved })

/-- Modelled from the spec: `ParserState::rule` — the rule-entry wrapper.
It queues a start token before the body and an end token after it unless a
lookahead is active or the mode is `Atomic`; on ordinary failure the queue
is truncated back to its entry length. -/
def stRule (name : String) (pos : Nat) (f : ParserState → Nat → RP)
    (st : ParserState) : RP :=
  let idx := st.queue.length
  let st1 :=
    if st.lookahead = false ∧ st.atomicity ≠ Atomicity.Atomic then
      { st with queue := st.queue ++ [QToken.tokStart name pos] }
    else st
  let x := f st1 pos
  match x.1 with
  | Res.ok p =>
    (Res.ok p,
      if st.lookahead = false ∧ st.atomicity ≠ Atomicity.Atomic then
        { x.2 with queue := x.2.queue ++ [QToken.tokEnd name p] }
      else x.2)
  | Res.err p => (Res.err p, { x.2 with queue := x.2.queue.take idx })
  | Res.fatal m => (Res.fatal m, x.2)

/-- Chain a result into a continuation, short-circuiting failure and fatal
outcomes (`Result::and_then`). -/
def rbind (x : RP) (f : Nat → ParserState → RP) : RP :=
  match x.1 with
  | Res.ok p => f p x.2
  | _ => x

/-- Modelled from the spec: the paired `ParserState::sequence` and
`Position::sequence` scopes — on inner failure the position, the token
queue and the capture stack all roll back to their entry values. -/
def stSeqPos (pos : Nat) (f : ParserState → RP) (st : ParserState) : RP :=
  let x := f st
  match x.1 with
  | Res.err _ =>
    (Res.err pos, { x.2 with queue := x.2.queue.take st.queue.length, stack := st.stack })
  | _ => x

/-- Fold step for `Expr::Skip`: combine the fold accumulator with the
attempt for one more literal, keeping the earliest success
(`Vm::parse_expr`, `Expr::Skip` arm). -/
def skipCombine (acc : Res) (attempt : Res) : Res :=
  match acc, attempt with
  | Res.ok l, Res.ok r => if r < l then Res.ok r else Res.ok l
  | Res.ok l, Res.err _ => Res.ok l
  | Res.err _, Res.ok r => Res.ok r
  | Res.err l, Res.err _ => Res.err l
  | Res.fatal m, _ => Res.fatal m
  | _, Res.fatal m => Res.fatal m

/-- Requests of the interpreter: the mutually recursive pieces of the VM
(`parse_rule`, `parse_expr`, `repeat` with its mandatory-prefix chain and
its greedy loop, `skip`, and the `Position::repeat` zero-or-more helper),
defunctionalised so that a single fuel-indexed function interprets all of
them. -/
inductive Req where
  | rrule (name : String)
  | rexpr (e : Expr)
  | rrep (e : Expr) (mn mx : Option Nat)
  | rchain (e : Expr) (k : Nat)
  | rloop (e : Expr) (mx : Option Nat) (times : Nat)
  | rskip
  | rposRepeat (inner : Req)
  | rcws
deriving DecidableEq, Repr

/-- The VM interpreter.  Each case is translated from the corresponding
function of `vm/src/lib.rs`: `rrule` from `Vm::parse_rule`, `rexpr` from
`Vm::parse_expr`, `rrep`/`rchain`/`rloop` from `Vm::repeat` (mandatory
occurrences, then the greedy loop with its `times` counter), `rskip` from
`Vm::skip`, `rposRepeat` from the spec-modelled `Position::repeat`
(zero-or-more, stopping when an attempt fails or does not advance), and
`rcws` from the `comment whitespace*` sequence inside `Vm::skip`.  Fuel
exhaustion is a fatal outcome. -/
def run (fuel : Nat) (g : List Rule) (input : List Char) :
    Req → Nat → ParserState → RP :=
  match fuel with
  | 0 => fun _ _ st => (Res.fatal "fuel", st)
  | fuel + 1 => fun req pos st =>
    match req with
    | Req.rrule name =>
      if name = "any" then (posSkip input pos 1, st)
      else if name = "eoi" then
        stRule "eoi" pos (fun st _ => (atEnd input pos, st)) st
      else if name = "soi" then (atStart pos, st)
      else if name = "peek" then
        match st.stack with
        | [] => (Res.fatal "peek was called on empty stack", st)
        | sp :: _ => (matchString input pos (spanStr input sp), st)
      else if name = "pop" then
        match st.stack with
        | [] => (Res.fatal "pop was called on empty stack", st)
        | sp :: rest =>
          match matchString input pos (spanStr input sp) with
          | Res.ok p => (Res.ok p, { st with stack := rest })
          | r => (r, st)
      else
        match vmGet g name with
        | none => (Res.fatal "undefined rule", st)
        | some rl =>
          if rl.name = "whitespace" ∨ rl.name = "comment" then
            match rl.ty with
            | RuleType.Normal =>
              stRule rl.name pos (fun st pos =>
                stAtomic Atomicity.Atomic
                  (fun st => run fuel g input (Req.rexpr rl.expr) pos st) st) st
            | RuleType.Silent =>
              stAtomic Atomicity.Atomic
                (fun st => run fuel g input (Req.rexpr rl.expr) pos st) st
            | RuleType.Atomic =>
              stRule rl.name pos (fun st pos =>
                stAtomic Atomicity.Atomic
                  (fun st => run fuel g input (Req.rexpr rl.expr) pos st) st) st
            | RuleType.CompoundAtomic =>
              stAtomic Atomicity.CompoundAtomic (fun st =>
                stRule rl.name pos (fun st pos =>
                  run fuel g input (Req.rexpr rl.expr) pos st) st) st
            | RuleType.NonAtomic =>
              stAtomic Atomicity.Atomic (fun st =>
                stRule rl.name pos (fun st pos =>
                  run fuel g input (Req.rexpr rl.expr) pos st) st) st
          else
            match rl.ty with
            | RuleType.Normal =>
              stRule rl.name pos (fun st pos =>
                run fuel g input (Req.rexpr rl.expr) pos st) st
            | RuleType.Silent => run fuel g input (Req.rexpr rl.expr) pos st
            | RuleType.Atomic =>
              stRule rl.name pos (fun st pos =>
                stAtomic Atomicity.Atomic
                  (fun st => run fuel g input (Req.rexpr rl.expr) pos st) st) st
            | RuleType.CompoundAtomic =>
              stAtomic Atomicity.CompoundAtomic (fun st =>
                stRule rl.name pos (fun st pos =>
                  run fuel g input (Req.rexpr rl.expr) pos st) st) st
            | RuleType.NonAtomic =>
              stAtomic Atomicity.NonAtomic (fun st =>
                stRule rl.name pos (fun st pos =>
                  run fuel g input (Req.rexpr rl.expr) pos st) st) st
    | Req.rexpr e =>
      match e with
      | Expr.Str s =>
        match unescape s with
        | some t => (matchString input pos t, st)
        | none => (Res.fatal "incorrect string literal", st)
      | Expr.Insens s =>
        match unescape s with
        | some t => (matchInsensitive input pos t, st)
        | none => (Res.fatal "incorrect string literal", st)
      | Expr.Range ls hs =>
        match unescape ls with
        | none => (Res.fatal "incorrect char literal", st)
        | some l =>
          match l with
          | [] => (Res.fatal "empty char literal", st)
          | lc :: _ =>
            match unescape hs with
            | none => (Res.fatal "incorrect char literal", st)
            | some h =>
              match h with
              | [] => (Res.fatal "empty char literal", st)
              | hc :: _ => (matchRange input pos lc hc, st)
      | Expr.Ident name => run fuel g input (Req.rrule name) pos st
      | Expr.PosPred e1 =>
        let x := run fuel g input (Req.rexpr e1) pos { st with lookahead := true }
        let stR := { x.2 with queue := st.queue, stack := st.stack, lookahead := st.lookahead }
        match x.1 with
        | Res.ok _ => (Res.ok pos, stR)
        | Res.err _ => (Res.err pos, stR)
        | Res.fatal m => (Res.fatal m, stR)
      | Expr.NegPred e1 =>
        let x := run fuel g input (Req.rexpr e1) pos { st with lookahead := true }
        let stR := { x.2 with queue := st.queue, stack := st.stack, lookahead := st.lookahead }
        match x.1 with
        | Res.ok _ => (Res.err pos, stR)
        | Res.err _ => (Res.ok pos, stR)
        | Res.fatal m => (Res.fatal m, stR)
      | Expr.Seq l r =>
        stSeqPos pos (fun st =>
          rbind (run fuel g input (Req.rexpr l) pos st) (fun p st =>
            rbind (run fuel g input Req.rskip p st) (fun p st =>
              run fuel g input (Req.rexpr r) p st))) st
      | Expr.Choice l r =>
        let x := run fuel g input (Req.rexpr l) pos st
        match x.1 with
        | Res.err ep => run fuel g input (Req.rexpr r) ep x.2
        | _ => x
      | Expr.Opt e1 =>
        let x := run fuel g input (Req.rexpr e1) pos st
        match x.1 with
        | Res.err _ => (Res.ok pos, x.2)
        | _ => x
      | Expr.Rep e1 => run fuel g input (Req.rrep e1 none none) pos st
      | Expr.RepOnce e1 => run fuel g input (Req.rrep e1 (some 1) none) pos st
      | Expr.RepExact e1 n => run fuel g input (Req.rrep e1 (some n) (some n)) pos st
      | Expr.RepMin e1 n => run fuel g input (Req.rrep e1 (some n) none) pos st
      | Expr.RepMax e1 n => run fuel g input (Req.rrep e1 none (some n)) pos st
      | Expr.RepMinMax e1 mn mx => run fuel g input (Req.rrep e1 (some mn) (some mx)) pos st
      | Expr.Push e1 =>
        let x := run fuel g input (Req.rexpr e1) pos st
        match x.1 with
        | Res.ok p => (Res.ok p, { x.2 with stack := Span.mk pos p :: x.2.stack })
        | _ => x
      | Expr.SkipE ss =>
        match ss with
        | [] => (Res.fatal "index out of bounds", st)
        | s0 :: srest =>
          (srest.foldl (fun acc s => skipCombine acc (skipUntilRes input pos s))
            (skipUntilRes input pos s0), st)
    | Req.rrep e mn mx =>
      stSeqPos pos (fun st =>
        rbind
          (match mn with
           | some m =>
             if 0 < m then
               rbind (run fuel g input (Req.rexpr e) pos st) (fun p st =>
                 run fuel g input (Req.rchain e (m - 1)) p st)
             else run fuel g input (Req.rexpr (Expr.Opt e)) pos st
           | none => run fuel g input (Req.rexpr (Expr.Opt e)) pos st)
          (fun p st => run fuel g input (Req.rloop e mx 1) p st)) st
    | Req.rchain e k =>
      match k with
      | 0 => (Res.ok pos, st)
      | k + 1 =>
        rbind (run fuel g input Req.rskip pos st) (fun p st =>
          rbind (run fuel g input (Req.rexpr e) p st) (fun p st =>
            run fuel g input (Req.rchain e k) p st))
    | Req.rloop e mx times =>
      match mx with
      | some m =>
        if times ≥ m then (Res.ok pos, st)
        else
          let x := rbind (run fuel g input Req.rskip pos st) (fun p st =>
            run fuel g input (Req.rexpr e) p st)
          match x.1 with
          | Res.ok p => run fuel g input (Req.rloop e (some m) (times + 1)) p x.2
          | Res.err _ => (Res.ok pos, x.2)
          | Res.fatal m2 => (Res.fatal m2, x.2)
      | none =>
        let x := rbind (run fuel g input Req.rskip pos st) (fun p st =>
          run fuel g input (Req.rexpr e) p st)
        match x.1 with
        | Res.ok p => run fuel g input (Req.rloop e none (times + 1)) p x.2
        | Res.err _ => (Res.ok pos, x.2)
        | Res.fatal m2 => (Res.fatal m2, x.2)
    | Req.rskip =>
      match (vmGet g "whitespace").isSome, (vmGet g "comment").isSome with
      | false, false => (Res.ok pos, st)
      | true, false =>
        if st.atomicity = Atomicity.NonAtomic then
          run fuel g input (Req.rposRepeat (Req.rrule "whitespace")) pos st
        else (Res.ok pos, st)
      | false, true =>
        if st.atomicity = Atomicity.NonAtomic then
          run fuel g input (Req.rposRepeat (Req.rrule "comment")) pos st
        else (Res.ok pos, st)
      | true, true =>
        if st.atomicity = Atomicity.NonAtomic then
          stSeqPos pos (fun st =>
            rbind (run fuel g input (Req.rposRepeat (Req.rrule "whitespace")) pos st)
              (fun p st => run fuel g input (Req.rposRepeat Req.rcws) p st)) st
        else (Res.ok pos, st)
    | Req.rposRepeat inner =>
      let x := run fuel g input inner pos st
      match x.1 with
      | Res.ok p =>
        if p = pos then (Res.ok p, x.2)
        else run fuel g input (Req.rposRepeat inner) p x.2
      | Res.err _ => (Res.ok pos, x.2)
      | Res.fatal m => (Res.fatal m, x.2)
    | Req.rcws =>
      stSeqPos pos (fun st =>
        rbind (run fuel g input (Req.rrule "comment") pos st) (fun p st =>
          run fuel g input (Req.rposRepeat (Req.rrule "whitespace")) p st)) st

/-- `Vm::parse`: run the chosen start rule from position 0 in a fresh
context. -/
def vmParse (fuel : Nat) (g : List Rule) (input : List Char) (rule : String) : RP :=
  run fuel g input (Req.rrule rule) 0 initState

/-! ### Invariants of the interpreter. -/

/-- A result on the fatal channel caused by literal decoding
(`expect` panics of `Vm::parse_expr` on `Str`, `Insens`, `Range`). -/
def litFatal (r : Res) : Prop :=
  r = Res.fatal "incorrect string literal" ∨ r = Res.fatal "incorrect char literal" ∨
  r = Res.fatal "empty char literal"

/-- Every literal of the expression decodes, and every `Range` endpoint
decodes to non-empty text (`ScanToAny` literals are used raw, so they need
no condition). -/
def goodExpr : Expr → Bool
  | Expr.Str s => (unescape s).isSome
  | Expr.Insens s => (unescape s).isSome
  | Expr.Range ls hs =>
    (match unescape ls with
     | some (_ :: _) => true
     | _ => false) &&
    (match unescape hs with
     | some (_ :: _) => true
     | _ => false)
  | Expr.Ident _ => true
  | Expr.PosPred e => goodExpr e
  | Expr.NegPred e => goodExpr e
  | Expr.Seq l r => goodExpr l && goodExpr r
  | Expr.Choice l r => goodExpr l && goodExpr r
  | Expr.Opt e => goodExpr e
  | Expr.Rep e => goodExpr e
  | Expr.RepOnce e => goodExpr e
  | Expr.RepExact e _ => goodExpr e
  | Expr.RepMin e _ => goodExpr e
  | Expr.RepMax e _ => goodExpr e
  | Expr.RepMinMax e _ _ => goodExpr e
  | Expr.Push e => goodExpr e
  | Expr.SkipE _ => true

/-- Every rule body of the grammar satisfies `goodExpr`. -/
def goodVm (g : List Rule) : Bool := g.all (fun r => goodExpr r.expr)

/-- Lift `goodExpr` to interpreter requests. -/
def goodReq : Req → Bool
  | Req.rrule _ => true
  | Req.rexpr e => goodExpr e
  | Req.rrep e _ _ => goodExpr e
  | Req.rchain e _ => goodExpr e
  | Req.rloop e _ _ => goodExpr e
  | Req.rskip => true
  | Req.rposRepeat inner => goodReq inner
  | Req.rcws => true

/-- `IsPre q l` says `q` is an initial segment of `l`.  The token queue is
only ever extended at the end or truncated back to a recorded length, so
entry queues persist as initial segments. -/
def IsPre {α : Type} (q l : List α) : Prop := l.take q.length = q

/-- The three result invariants shared by every interpreter request:
atomicity and the lookahead flag are restored, the entry token queue
persists as an initial segment, and success never moves backwards. -/
structure InvP (pos : Nat) (st : ParserState) (x : RP) : Prop where
  pfA : x.2.atomicity = st.atomicity
  pfL : x.2.lookahead = st.lookahead
  pd : IsPre st.queue x.2.queue
  pb : ∀ p, x.1 = Res.ok p → pos ≤ p

/-- Rollback discipline: an ordinary failure reports the entry position
and leaves the context exactly as it was. -/
def PA (pos : Nat) (st : ParserState) (x : RP) : Prop :=
  ∀ q, x.1 = Res.err q → q = pos ∧ x.2 = st

/-- Best-effort requests never fail on the ordinary channel. -/
def PE (x : RP) : Prop := ∀ q, x.1 ≠ Res.err q

/-- Requests whose failures roll back completely (everything except the
mandatory-occurrences chain of the repetition engine, which is always run
inside a sequence scope). -/
def Req.closed : Req → Prop
  | Req.rchain _ _ => False
  | _ => True

/-- Requests that never fail on the ordinary channel: the skip inserter,
the zero-or-more position repeater and the greedy repetition loop. -/
def Req.noErr : Req → Prop
  | Req.rskip => True
  | Req.rposRepeat _ => True
  | Req.rloop _ _ _ => True
  | _ => False

/-- Modelled from the spec: dispatch of a `CompoundAtomic` rule the way
claims C3/C4 word it — force `Atomic` mode for the body, and emit the
rule's own token (the rule-entry wrapper outside the mode change). -/
def dispatchCompoundSpec (fuel : Nat) (g : List Rule) (input : List Char) (rl : Rule)
    (pos : Nat) (st : ParserState) : RP :=
  stRule rl.name pos (fun s p => stAtomic Atomicity.Atomic
    (fun s2 => run fuel g input (Req.rexpr rl.expr) p s2) s) st


theorem isPre_refl {α : Type} (l : List α) : IsPre l l := by
  unfold IsPre
  simp

theorem isPre_app {α : Type} (l t : List α) : IsPre l (l ++ t) := by
  unfold IsPre
  induction l with
  | nil => rfl
  | cons a l ih => simp [ih]

theorem isPre_len {α : Type} {q l : List α} (h : IsPre q l) : q.length ≤ l.length := by
  unfold IsPre at h
  have := congrArg List.length h
  simp [List.length_take] at this
  omega

theorem isPre_trans {α : Type} {a b c : List α} (h1 : IsPre a b) (h2 : IsPre b c) :
    IsPre a c := by
  unfold IsPre at *
  have hab : a.length ≤ b.length := by
    have := congrArg List.length h1
    simp [List.length_take] at this
    omega
  calc c.take a.length = (c.take b.length).take a.length := by
        rw [List.take_take, Nat.min_eq_left hab]
    _ = b.take a.length := by rw [h2]
    _ = a := h1

theorem isPre_take {α : Type} {q l : List α} (h : IsPre q l) : l.take q.length = q := h

theorem isPre_take_self {α : Type} {q l : List α} (h : IsPre q l) :
    IsPre q (l.take q.length) := by
  unfold IsPre at *
  rw [h]
  simp

/-- Extensionality for parser states. -/
theorem psExt {a b : ParserState} (h1 : a.queue = b.queue) (h2 : a.stack = b.stack)
    (h3 : a.atomicity = b.atomicity) (h4 : a.lookahead = b.lookahead) : a = b := by
  cases a; cases b
  simp only [ParserState.mk.injEq]
  exact ⟨h1, h2, h3, h4⟩

theorem psEtaQ (st : ParserState) : { st with queue := st.queue } = st := by
  cases st; rfl

theorem psEtaA (st : ParserState) : { st with atomicity := st.atomicity } = st := by
  cases st; rfl

theorem InvP.chain {pos : Nat} {st : ParserState} {x y : RP} {p : Nat}
    (hx : InvP pos st x) (hp : x.1 = Res.ok p) (hy : InvP p x.2 y) :
    InvP pos st y := by
  refine ⟨?_, ?_, ?_, ?_⟩
  · rw [hy.pfA, hx.pfA]
  · rw [hy.pfL, hx.pfL]
  · exact isPre_trans hx.pd hy.pd
  · intro p2 h2
    exact Nat.le_trans (hx.pb p hp) (hy.pb p2 h2)

theorem invP_pure {pos : Nat} {st : ParserState} {r : Res}
    (hb : ∀ p, r = Res.ok p → pos ≤ p) : InvP pos st (r, st) :=
  ⟨rfl, rfl, isPre_refl _, hb⟩

theorem pa_pure {pos : Nat} {st : ParserState} {r : Res}
    (he : ∀ q, r = Res.err q → q = pos) : PA pos st (r, st) := by
  intro q h
  exact ⟨he q h, rfl⟩

/-! ### Result facts about the position primitives. -/

theorem matchString_pb {input : List Char} {pos : Nat} {s : List Char} {p : Nat}
    (h : matchString input pos s = Res.ok p) : pos ≤ p := by
  unfold matchString at h
  split at h
  · cases h; omega
  · cases h

theorem matchString_pa {input : List Char} {pos : Nat} {s : List Char} {q : Nat}
    (h : matchString input pos s = Res.err q) : q = pos := by
  unfold matchString at h
  split at h
  · cases h
  · cases h; rfl

theorem matchInsensitive_pb {input : List Char} {pos : Nat} {s : List Char} {p : Nat}
    (h : matchInsensitive input pos s = Res.ok p) : pos ≤ p := by
  unfold matchInsensitive at h
  split at h
  · cases h; omega
  · cases h

theorem matchInsensitive_pa {input : List Char} {pos : Nat} {s : List Char} {q : Nat}
    (h : matchInsensitive input pos s = Res.err q) : q = pos := by
  unfold matchInsensitive at h
  split at h
  · cases h
  · cases h; rfl

theorem matchRange_pb {input : List Char} {pos : Nat} {lo hi : Char} {p : Nat}
    (h : matchRange input pos lo hi = Res.ok p) : pos ≤ p := by
  unfold matchRange at h
  split at h
  · split at h
    · cases h; omega
    · cases h
  · cases h

theorem matchRange_pa {input : List Char} {pos : Nat} {lo hi : Char} {q : Nat}
    (h : matchRange input pos lo hi = Res.err q) : q = pos := by
  unfold matchRange at h
  split at h
  · split at h
    · cases h
    · cases h; rfl
  · cases h; rfl

theorem posSkip_pb {input : List Char} {pos n p : Nat}
    (h : posSkip input pos n = Res.ok p) : pos ≤ p := by
  unfold posSkip at h
  split at h
  · cases h; omega
  · cases h

theorem posSkip_pa {input : List Char} {pos n q : Nat}
    (h : posSkip input pos n = Res.err q) : q = pos := by
  unfold posSkip at h
  split at h
  · cases h
  · cases h; rfl

theorem atEnd_pb {input : List Char} {pos p : Nat}
    (h : atEnd input pos = Res.ok p) : pos ≤ p := by
  unfold atEnd at h
  split at h
  · cases h; omega
  · cases h

theorem atEnd_pa {input : List Char} {pos q : Nat}
    (h : atEnd input pos = Res.err q) : q = pos := by
  unfold atEnd at h
  split at h
  · cases h
  · cases h; rfl

theorem atStart_pb {pos p : Nat} (h : atStart pos = Res.ok p) : pos ≤ p := by
  unfold atStart at h
  split at h
  · cases h; omega
  · cases h

theorem atStart_pa {pos q : Nat} (h : atStart pos = Res.err q) : q = pos := by
  unfold atStart at h
  split at h
  · cases h
  · cases h; rfl

theorem findFromAux_ge {input s : List Char} :
    ∀ {k pos i : Nat}, findFromAux input s k pos = some i → pos ≤ i := by
  intro k
  induction k with
  | zero => intro pos i h; cases h
  | succ k ih =>
    intro pos i h
    unfold findFromAux at h
    split at h
    · cases h; omega
    · have := ih h
      omega

theorem skipUntilRes_pb {input : List Char} {pos : Nat} {s : List Char} {p : Nat}
    (h : skipUntilRes input pos s = Res.ok p) : pos ≤ p := by
  unfold skipUntilRes findFrom at h
  split at h
  · cases h
    exact findFromAux_ge (by assumption)
  · cases h

theorem skipUntilRes_pa {input : List Char} {pos : Nat} {s : List Char} {q : Nat}
    (h : skipUntilRes input pos s = Res.err q) : q = pos := by
  unfold skipUntilRes at h
  split at h
  · cases h
  · cases h; rfl

theorem skipUntilRes_nf {input : List Char} {pos : Nat} {s : List Char} {m : String} :
    skipUntilRes input pos s ≠ Res.fatal m := by
  unfold skipUntilRes
  split <;> intro h <;> cases h

/-- The `Expr::Skip` fold keeps the three facts the evaluator needs:
success is at or after `pos`, failure reports `pos`, and no fatal outcome
arises. -/
theorem skipFold_inv (input : List Char) (pos : Nat) (srest : List (List Char)) :
    ∀ acc : Res,
      (∀ p, acc = Res.ok p → pos ≤ p) → (∀ q, acc = Res.err q → q = pos) →
      (∀ m, acc ≠ Res.fatal m) →
      let r := srest.foldl (fun acc s => skipCombine acc (skipUntilRes input pos s)) acc
      (∀ p, r = Res.ok p → pos ≤ p) ∧ (∀ q, r = Res.err q → q = pos) := by
  induction srest with
  | nil =>
    intro acc hok herr _
    exact ⟨hok, herr⟩
  | cons s srest ih =>
    intro acc hok herr hnf
    simp only [List.foldl_cons]
    apply ih
    · intro p hp
      unfold skipCombine at hp
      split at hp
      · split at hp
        · cases hp
          exact skipUntilRes_pb (by assumption)
        · cases hp
          exact hok _ rfl
      · cases hp
        exact hok _ rfl
      · cases hp
        exact skipUntilRes_pb (by assumption)
      · cases hp
      · cases hp
      · cases hp
    · intro q hq
      unfold skipCombine at hq
      split at hq
      · split at hq <;> cases hq
      · cases hq
      · cases hq
      · cases hq
        exact herr _ rfl
      · cases hq
      · cases hq
    · intro m hm
      unfold skipCombine at hm
      split at hm
      · split at hm <;> cases hm
      · cases hm
      · cases hm
      · cases hm
      · exact hnf _ (by assumption)
      · exact skipUntilRes_nf (by assumption)

/-- Rule lookup returns a rule carrying the looked-up name. -/
theorem vmGet_name {g : List Rule} {n : String} {r : Rule}
    (h : vmGet g n = some r) : r.name = n := by
  induction g with
  | nil => cases h
  | cons a g ih =>
    unfold vmGet at h
    split at h
    · cases h
      exact ih (by assumption)
    · split at h
      · cases h
        assumption
      · cases h

/-! ### Invariant lemmas for the context combinators. -/

theorem stAtomic_inv (a : Atomicity) (f : ParserState → RP) (pos : Nat) (st : ParserState)
    (h : InvP pos { st with atomicity := a } (f { st with atomicity := a })) :
    InvP pos st (stAtomic a f st) := by
  simp only [stAtomic]
  exact ⟨rfl, h.pfL, h.pd, h.pb⟩

theorem stAtomic_pa (a : Atomicity) (f : ParserState → RP) (pos : Nat) (st : ParserState)
    (hpa : PA pos { st with atomicity := a } (f { st with atomicity := a })) :
    PA pos st (stAtomic a f st) := by
  simp only [stAtomic]
  intro q hq
  obtain ⟨h1, h2⟩ := hpa q hq
  refine ⟨h1, ?_⟩
  rw [h2]

theorem stAtomic_pe (a : Atomicity) (f : ParserState → RP) (st : ParserState)
    (hpe : PE (f { st with atomicity := a })) : PE (stAtomic a f st) := by
  simp only [stAtomic]
  intro q hq
  exact hpe q hq

theorem stRule_inv (n : String) (pos : Nat) (f : ParserState → Nat → RP) (st : ParserState)
    (hbody : ∀ st1, InvP pos st1 (f st1 pos) ∧ PA pos st1 (f st1 pos)) :
    InvP pos st (stRule n pos f st) ∧ PA pos st (stRule n pos f st) := by
  simp only [stRule]
  by_cases hc : st.lookahead = false ∧ st.atomicity ≠ Atomicity.Atomic
  · simp only [if_pos hc]
    obtain ⟨hI, hA⟩ := hbody { st with queue := st.queue ++ [QToken.tokStart n pos] }
    have happ : (st.queue ++ [QToken.tokStart n pos]).take st.queue.length = st.queue :=
      isPre_take (isPre_app _ _)
    cases hx : (f { st with queue := st.queue ++ [QToken.tokStart n pos] } pos).1 with
    | ok p =>
      simp only [hx]
      constructor
      · refine ⟨hI.pfA, hI.pfL, ?_, ?_⟩
        · exact isPre_trans (isPre_trans (isPre_app _ _) hI.pd) (isPre_app _ _)
        · intro p2 h2
          cases h2
          exact hI.pb p hx
      · intro q hq
        exact Res.noConfusion hq
    | err q =>
      simp only [hx]
      obtain ⟨hq1, hq2⟩ := hA q hx
      constructor
      · refine ⟨hI.pfA, hI.pfL, ?_, ?_⟩
        · rw [hq2]
          show IsPre st.queue ((st.queue ++ [QToken.tokStart n pos]).take st.queue.length)
          rw [happ]
          exact isPre_refl _
        · intro p2 h2
          exact Res.noConfusion h2
      · intro q2 hq2e
        cases hq2e
        refine ⟨hq1, ?_⟩
        rw [hq2]
        show ({ st with queue := (st.queue ++ [QToken.tokStart n pos]).take st.queue.length }
          = st)
        rw [happ]
    | fatal m =>
      simp only [hx]
      constructor
      · refine ⟨hI.pfA, hI.pfL, isPre_trans (isPre_app _ _) hI.pd, ?_⟩
        intro p2 h2
        exact Res.noConfusion h2
      · intro q hq
        exact Res.noConfusion hq
  · simp only [if_neg hc]
    obtain ⟨hI, hA⟩ := hbody st
    cases hx : (f st pos).1 with
    | ok p =>
      simp only [hx]
      constructor
      · refine ⟨hI.pfA, hI.pfL, hI.pd, ?_⟩
        intro p2 h2
        cases h2
        exact hI.pb p hx
      · intro q hq
        exact Res.noConfusion hq
    | err q =>
      simp only [hx]
      obtain ⟨hq1, hq2⟩ := hA q hx
      constructor
      · refine ⟨hI.pfA, hI.pfL, ?_, ?_⟩
        · rw [hq2]
          show IsPre st.queue (st.queue.take st.queue.length)
          exact isPre_take_self (isPre_refl _)
        · intro p2 h2
          exact Res.noConfusion h2
      · intro q2 hq2e
        cases hq2e
        refine ⟨hq1, ?_⟩
        rw [hq2]
        show ({ st with queue := st.queue.take st.queue.length } = st)
        rw [isPre_take (isPre_refl st.queue)]
    | fatal m =>
      simp only [hx]
      constructor
      · refine ⟨hI.pfA, hI.pfL, hI.pd, ?_⟩
        intro p2 h2
        exact Res.noConfusion h2
      · intro q hq
        exact Res.noConfusion hq

theorem rbind_inv (x : RP) (f : Nat → ParserState → RP) (pos : Nat) (st : ParserState)
    (hx : InvP pos st x)
    (hf : ∀ p, x.1 = Res.ok p → InvP p x.2 (f p x.2)) :
    InvP pos st (rbind x f) := by
  unfold rbind
  cases hx1 : x.1 with
  | ok p => exact hx.chain hx1 (hf p hx1)
  | err q => exact hx
  | fatal m => exact hx

theorem rbind_pe (x : RP) (f : Nat → ParserState → RP)
    (hxe : PE x) (hfe : ∀ p, x.1 = Res.ok p → PE (f p x.2)) : PE (rbind x f) := by
  unfold rbind
  cases hx1 : x.1 with
  | ok p => exact hfe p hx1
  | err q => exact absurd hx1 (hxe q)
  | fatal m =>
    intro q hq
    rw [hx1] at hq
    exact Res.noConfusion hq

theorem stSeqPos_inv (pos : Nat) (f : ParserState → RP) (st : ParserState)
    (h : InvP pos st (f st)) :
    InvP pos st (stSeqPos pos f st) ∧ PA pos st (stSeqPos pos f st) := by
  simp only [stSeqPos]
  cases hx : (f st).1 with
  | ok p =>
    simp only [hx]
    refine ⟨h, ?_⟩
    intro q hq
    rw [hx] at hq
    exact Res.noConfusion hq
  | err q =>
    simp only [hx]
    constructor
    · refine ⟨h.pfA, h.pfL, isPre_take_self h.pd, ?_⟩
      intro p2 h2
      exact Res.noConfusion h2
    · intro q2 hq2
      cases hq2
      refine ⟨rfl, ?_⟩
      exact psExt (isPre_take h.pd) rfl h.pfA h.pfL
  | fatal m =>
    simp only [hx]
    refine ⟨h, ?_⟩
    intro q hq
    rw [hx] at hq
    exact Res.noConfusion hq

theorem stSeqPos_pe (pos : Nat) (f : ParserState → RP) (st : ParserState)
    (hpe : PE (f st)) : PE (stSeqPos pos f st) := by
  simp only [stSeqPos]
  cases hx : (f st).1 with
  | ok p =>
    simp only [hx]
    intro q hq
    rw [hx] at hq
    exact Res.noConfusion hq
  | err q => exact absurd hx (hpe q)
  | fatal m =>
    simp only [hx]
    intro q hq
    rw [hx] at hq
    exact Res.noConfusion hq

/-- Master invariant of the interpreter, by induction on fuel: every
request restores the atomicity mode and lookahead flag, preserves the
entry token queue as an initial segment, and never succeeds at an earlier
position; closed requests roll back completely on ordinary failure,
reporting the entry position; and the skip inserter, the position repeater
and the greedy loop never fail on the ordinary channel. -/
theorem runInv (g : List Rule) (input : List Char) :
    ∀ fuel req pos st,
      InvP pos st (run fuel g input req pos st) ∧
      (Req.closed req → PA pos st (run fuel g input req pos st)) ∧
      (Req.noErr req → PE (run fuel g input req pos st)) := by
  intro fuel
  induction fuel with
  | zero =>
    intro req pos st
    refine ⟨⟨rfl, rfl, isPre_refl _, ?_⟩, ?_, ?_⟩
    · intro p h
      exact Res.noConfusion h
    · intro _ q h
      exact Res.noConfusion h
    · intro _ q h
      exact Res.noConfusion h
  | succ fuel ih =>
    have ihI : ∀ req pos st, InvP pos st (run fuel g input req pos st) :=
      fun r p s => (ih r p s).1
    have ihA : ∀ req pos st, Req.closed req → PA pos st (run fuel g input req pos st) :=
      fun r p s h => (ih r p s).2.1 h
    have ihE : ∀ req pos st, Req.noErr req → PE (run fuel g input req pos st) :=
      fun r p s h => (ih r p s).2.2 h
    intro req pos st
    cases req with
    | rrule name =>
      simp only [run]
      by_cases h1 : name = "any"
      · simp only [if_pos h1]
        exact ⟨invP_pure (fun p h => posSkip_pb h),
          fun _ => pa_pure (fun q h => posSkip_pa h), fun hf => hf.elim⟩
      simp only [if_neg h1]
      by_cases h2 : name = "eoi"
      · simp only [if_pos h2]
        have hsr := stRule_inv "eoi" pos (fun st _ => (atEnd input pos, st)) st
          (fun st1 => ⟨invP_pure (fun p h => atEnd_pb h),
            pa_pure (fun q h => atEnd_pa h)⟩)
        exact ⟨hsr.1, fun _ => hsr.2, fun hf => hf.elim⟩
      simp only [if_neg h2]
      by_cases h3 : name = "soi"
      · simp only [if_pos h3]
        exact ⟨invP_pure (fun p h => atStart_pb h),
          fun _ => pa_pure (fun q h => atStart_pa h), fun hf => hf.elim⟩
      simp only [if_neg h3]
      by_cases h4 : name = "peek"
      · simp only [if_pos h4]
        cases hstk : st.stack with
        | nil =>
          simp only [hstk]
          exact ⟨invP_pure (fun p h => Res.noConfusion h),
            fun _ => pa_pure (fun q h => Res.noConfusion h), fun hf => hf.elim⟩
        | cons sp rest =>
          simp only [hstk]
          exact ⟨invP_pure (fun p h => matchString_pb h),
            fun _ => pa_pure (fun q h => matchString_pa h), fun hf => hf.elim⟩
      simp only [if_neg h4]
      by_cases h5 : name = "pop"
      · simp only [if_pos h5]
        cases hstk : st.stack with
        | nil =>
          simp only [hstk]
          exact ⟨invP_pure (fun p h => Res.noConfusion h),
            fun _ => pa_pure (fun q h => Res.noConfusion h), fun hf => hf.elim⟩
        | cons sp rest =>
          simp only [hstk]
          cases hm : matchString input pos (spanStr input sp) with
          | ok p =>
            simp only [hm]
            refine ⟨⟨rfl, rfl, isPre_refl _, ?_⟩, ?_, fun hf => hf.elim⟩
            · intro p2 hp2
              cases hp2
              exact matchString_pb hm
            · intro _ q hq
              exact Res.noConfusion hq
          | err q =>
            simp only [hm]
            exact ⟨invP_pure (fun p h => Res.noConfusion h),
              fun _ => pa_pure (fun q2 h => by cases h; exact matchString_pa hm),
              fun hf => hf.elim⟩
          | fatal m =>
            simp only [hm]
            exact ⟨invP_pure (fun p h => Res.noConfusion h),
              fun _ => pa_pure (fun q h => Res.noConfusion h), fun hf => hf.elim⟩
      simp only [if_neg h5]
      cases hg : vmGet g name with
      | none =>
        simp only [hg]
        exact ⟨invP_pure (fun p h => Res.noConfusion h),
          fun _ => pa_pure (fun q h => Res.noConfusion h), fun hf => hf.elim⟩
      | some rl =>
        simp only [hg]
        have hbodyR : ∀ p1 : Nat, ∀ st1,
            InvP p1 st1 (run fuel g input (Req.rexpr rl.expr) p1 st1) ∧
            PA p1 st1 (run fuel g input (Req.rexpr rl.expr) p1 st1) :=
          fun p1 st1 => ⟨ihI _ _ _, ihA _ _ _ trivial⟩
        by_cases hwc : rl.name = "whitespace" ∨ rl.name = "comment"
        · simp only [if_pos hwc]
          cases hty : rl.ty with
          | Normal =>
            have hsr := stRule_inv rl.name pos
              (fun st1 p1 => stAtomic Atomicity.Atomic
                (fun st2 => run fuel g input (Req.rexpr rl.expr) p1 st2) st1) st
              (fun st1 => ⟨stAtomic_inv _ _ _ _ (hbodyR pos _).1,
                stAtomic_pa _ _ _ _ (hbodyR pos _).2⟩)
            exact ⟨hsr.1, fun _ => hsr.2, fun hf => hf.elim⟩
          | Silent =>
            exact ⟨stAtomic_inv _ _ _ _ (hbodyR pos _).1,
              fun _ => stAtomic_pa _ _ _ _ (hbodyR pos _).2, fun hf => hf.elim⟩
          | Atomic =>
            have hsr := stRule_inv rl.name pos
              (fun st1 p1 => stAtomic Atomicity.Atomic
                (fun st2 => run fuel g input (Req.rexpr rl.expr) p1 st2) st1) st
              (fun st1 => ⟨stAtomic_inv _ _ _ _ (hbodyR pos _).1,
                stAtomic_pa _ _ _ _ (hbodyR pos _).2⟩)
            exact ⟨hsr.1, fun _ => hsr.2, fun hf => hf.elim⟩
          | CompoundAtomic =>
            have hin : ∀ st2, InvP pos st2
                (stRule rl.name pos
                  (fun st3 p3 => run fuel g input (Req.rexpr rl.expr) p3 st3) st2) ∧
                PA pos st2
                (stRule rl.name pos
                  (fun st3 p3 => run fuel g input (Req.rexpr rl.expr) p3 st3) st2) :=
              fun st2 => stRule_inv rl.name pos
                (fun st3 p3 => run fuel g input (Req.rexpr rl.expr) p3 st3) st2
                (fun st3 => hbodyR pos st3)
            exact ⟨stAtomic_inv _ _ _ _ (hin _).1, fun _ => stAtomic_pa _ _ _ _ (hin _).2,
              fun hf => hf.elim⟩
          | NonAtomic =>
            have hin : ∀ st2, InvP pos st2
                (stRule rl.name pos
                  (fun st3 p3 => run fuel g input (Req.rexpr rl.expr) p3 st3) st2) ∧
                PA pos st2
                (stRule rl.name pos
                  (fun st3 p3 => run fuel g input (Req.rexpr rl.expr) p3 st3) st2) :=
              fun st2 => stRule_inv rl.name pos
                (fun st3 p3 => run fuel g input (Req.rexpr rl.expr) p3 st3) st2
                (fun st3 => hbodyR pos st3)
            exact ⟨stAtomic_inv _ _ _ _ (hin _).1, fun _ => stAtomic_pa _ _ _ _ (hin _).2,
              fun hf => hf.elim⟩
        · simp only [if_neg hwc]
          cases hty : rl.ty with
          | Normal =>
            have hsr := stRule_inv rl.name pos
              (fun st1 p1 => run fuel g input (Req.rexpr rl.expr) p1 st1) st
              (fun st1 => hbodyR pos st1)
            exact ⟨hsr.1, fun _ => hsr.2, fun hf => hf.elim⟩
          | Silent =>
            exact ⟨ihI _ _ _, fun _ => ihA _ _ _ trivial, fun hf => hf.elim⟩
          | Atomic =>
            have hsr := stRule_inv rl.name pos
              (fun st1 p1 => stAtomic Atomicity.Atomic
                (fun st2 => run fuel g input (Req.rexpr rl.expr) p1 st2) st1) st
              (fun st1 => ⟨stAtomic_inv _ _ _ _ (hbodyR pos _).1,
                stAtomic_pa _ _ _ _ (hbodyR pos _).2⟩)
            exact ⟨hsr.1, fun _ => hsr.2, fun hf => hf.elim⟩
          | CompoundAtomic =>
            have hin : ∀ st2, InvP pos st2
                (stRule rl.name pos
                  (fun st3 p3 => run fuel g input (Req.rexpr rl.expr) p3 st3) st2) ∧
                PA pos st2
                (stRule rl.name pos
                  (fun st3 p3 => run fuel g input (Req.rexpr rl.expr) p3 st3) st2) :=
              fun st2 => stRule_inv rl.name pos
                (fun st3 p3 => run fuel g input (Req.rexpr rl.expr) p3 st3) st2
                (fun st3 => hbodyR pos st3)
            exact ⟨stAtomic_inv _ _ _ _ (hin _).1, fun _ => stAtomic_pa _ _ _ _ (hin _).2,
              fun hf => hf.elim⟩
          | NonAtomic =>
            have hin : ∀ st2, InvP pos st2
                (stRule rl.name pos
                  (fun st3 p3 => run fuel g input (Req.rexpr rl.expr) p3 st3) st2) ∧
                PA pos st2
                (stRule rl.name pos
                  (fun st3 p3 => run fuel g input (Req.rexpr rl.expr) p3 st3) st2) :=
              fun st2 => stRule_inv rl.name pos
                (fun st3 p3 => run fuel g input (Req.rexpr rl.expr) p3 st3) st2
                (fun st3 => hbodyR pos st3)
            exact ⟨stAtomic_inv _ _ _ _ (hin _).1, fun _ => stAtomic_pa _ _ _ _ (hin _).2,
              fun hf => hf.elim⟩
    | rexpr e =>
      cases e with
      | Str s =>
        simp only [run]
        cases hu : unescape s with
        | none =>
          simp only [hu]
          exact ⟨invP_pure (fun p h => Res.noConfusion h),
            fun _ => pa_pure (fun q h => Res.noConfusion h), fun hf => hf.elim⟩
        | some t =>
          simp only [hu]
          exact ⟨invP_pure (fun p h => matchString_pb h),
            fun _ => pa_pure (fun q h => matchString_pa h), fun hf => hf.elim⟩
      | Insens s =>
        simp only [run]
        cases hu : unescape s with
        | none =>
          simp only [hu]
          exact ⟨invP_pure (fun p h => Res.noConfusion h),
            fun _ => pa_pure (fun q h => Res.noConfusion h), fun hf => hf.elim⟩
        | some t =>
          simp only [hu]
          exact ⟨invP_pure (fun p h => matchInsensitive_pb h),
            fun _ => pa_pure (fun q h => matchInsensitive_pa h), fun hf => hf.elim⟩
      | Range ls hs =>
        simp only [run]
        cases hu1 : unescape ls with
        | none =>
          simp only [hu1]
          exact ⟨invP_pure (fun p h => Res.noConfusion h),
            fun _ => pa_pure (fun q h => Res.noConfusion h), fun hf => hf.elim⟩
        | some l1 =>
          simp only [hu1]
          cases l1 with
          | nil =>
            exact ⟨invP_pure (fun p h => Res.noConfusion h),
              fun _ => pa_pure (fun q h => Res.noConfusion h), fun hf => hf.elim⟩
          | cons lc lt =>
            cases hu2 : unescape hs with
            | none =>
              simp only [hu2]
              exact ⟨invP_pure (fun p h => Res.noConfusion h),
                fun _ => pa_pure (fun q h => Res.noConfusion h), fun hf => hf.elim⟩
            | some h1 =>
              simp only [hu2]
              cases h1 with
              | nil =>
                exact ⟨invP_pure (fun p h => Res.noConfusion h),
                  fun _ => pa_pure (fun q h => Res.noConfusion h), fun hf => hf.elim⟩
              | cons hc ht =>
                exact ⟨invP_pure (fun p h => matchRange_pb h),
                  fun _ => pa_pure (fun q h => matchRange_pa h), fun hf => hf.elim⟩
      | Ident name2 =>
        simp only [run]
        exact ⟨ihI _ _ _, fun _ => ihA _ _ _ trivial, fun hf => hf.elim⟩
      | PosPred e1 =>
        simp only [run]
        cases hx : (run fuel g input (Req.rexpr e1) pos { st with lookahead := true }).1 with
        | ok p =>
          simp only [hx]
          refine ⟨⟨(ihI _ _ _).pfA, rfl, isPre_refl _, ?_⟩, ?_, fun hf => hf.elim⟩
          · intro p2 h2
            cases h2
            exact Nat.le_refl pos
          · intro _ q hq
            exact Res.noConfusion hq
        | err q =>
          simp only [hx]
          refine ⟨⟨(ihI _ _ _).pfA, rfl, isPre_refl _, ?_⟩, ?_, fun hf => hf.elim⟩
          · intro p2 h2
            exact Res.noConfusion h2
          · intro _ q2 hq2
            cases hq2
            exact ⟨rfl, psExt rfl rfl (ihI _ _ _).pfA rfl⟩
        | fatal m =>
          simp only [hx]
          refine ⟨⟨(ihI _ _ _).pfA, rfl, isPre_refl _, ?_⟩, ?_, fun hf => hf.elim⟩
          · intro p2 h2
            exact Res.noConfusion h2
          · intro _ q hq
            exact Res.noConfusion hq
      | NegPred e1 =>
        simp only [run]
        cases hx : (run fuel g input (Req.rexpr e1) pos { st with lookahead := true }).1 with
        | ok p =>
          simp only [hx]
          refine ⟨⟨(ihI _ _ _).pfA, rfl, isPre_refl _, ?_⟩, ?_, fun hf => hf.elim⟩
          · intro p2 h2
            exact Res.noConfusion h2
          · intro _ q2 hq2
            cases hq2
            exact ⟨rfl, psExt rfl rfl (ihI _ _ _).pfA rfl⟩
        | err q =>
          simp only [hx]
          refine ⟨⟨(ihI _ _ _).pfA, rfl, isPre_refl _, ?_⟩, ?_, fun hf => hf.elim⟩
          · intro p2 h2
            cases h2
            exact Nat.le_refl pos
          · intro _ q hq
            exact Res.noConfusion hq
        | fatal m =>
          simp only [hx]
          refine ⟨⟨(ihI _ _ _).pfA, rfl, isPre_refl _, ?_⟩, ?_, fun hf => hf.elim⟩
          · intro p2 h2
            exact Res.noConfusion h2
          · intro _ q hq
            exact Res.noConfusion hq
      | Seq l r =>
        simp only [run]
        have hb : InvP pos st
            (rbind (run fuel g input (Req.rexpr l) pos st) (fun p st =>
              rbind (run fuel g input Req.rskip p st) (fun p st =>
                run fuel g input (Req.rexpr r) p st))) :=
          rbind_inv _ _ _ _ (ihI _ _ _) (fun p hp =>
            rbind_inv _ _ _ _ (ihI _ _ _) (fun p2 hp2 => ihI _ _ _))
        have hs := stSeqPos_inv pos
          (fun st =>
            rbind (run fuel g input (Req.rexpr l) pos st) (fun p st =>
              rbind (run fuel g input Req.rskip p st) (fun p st =>
                run fuel g input (Req.rexpr r) p st))) st hb
        exact ⟨hs.1, fun _ => hs.2, fun hf => hf.elim⟩
      | Choice l r =>
        simp only [run]
        cases hx : (run fuel g input (Req.rexpr l) pos st).1 with
        | ok p =>
          simp only [hx]
          refine ⟨ihI _ _ _, ?_, fun hf => hf.elim⟩
          intro _ q hq
          rw [hx] at hq
          exact Res.noConfusion hq
        | err ep =>
          simp only [hx]
          obtain ⟨hep, hst⟩ := ihA (Req.rexpr l) pos st trivial ep hx
          subst hep
          rw [hst]
          exact ⟨ihI _ _ _, fun _ => ihA _ _ _ trivial, fun hf => hf.elim⟩
        | fatal m =>
          simp only [hx]
          refine ⟨ihI _ _ _, ?_, fun hf => hf.elim⟩
          intro _ q hq
          rw [hx] at hq
          exact Res.noConfusion hq
      | Opt e1 =>
        simp only [run]
        cases hx : (run fuel g input (Req.rexpr e1) pos st).1 with
        | ok p =>
          simp only [hx]
          refine ⟨ihI _ _ _, ?_, fun hf => hf.elim⟩
          intro _ q hq
          rw [hx] at hq
          exact Res.noConfusion hq
        | err q =>
          simp only [hx]
          refine ⟨⟨(ihI _ _ _).pfA, (ihI _ _ _).pfL, (ihI _ _ _).pd, ?_⟩, ?_,
            fun hf => hf.elim⟩
          · intro p2 h2
            cases h2
            exact Nat.le_refl pos
          · intro _ q2 hq2
            exact Res.noConfusion hq2
        | fatal m =>
          simp only [hx]
          refine ⟨ihI _ _ _, ?_, fun hf => hf.elim⟩
          intro _ q hq
          rw [hx] at hq
          exact Res.noConfusion hq
      | Rep e1 =>
        simp only [run]
        exact ⟨ihI _ _ _, fun _ => ihA _ _ _ trivial, fun hf => hf.elim⟩
      | RepOnce e1 =>
        simp only [run]
        exact ⟨ihI _ _ _, fun _ => ihA _ _ _ trivial, fun hf => hf.elim⟩
      | RepExact e1 n2 =>
        simp only [run]
        exact ⟨ihI _ _ _, fun _ => ihA _ _ _ trivial, fun hf => hf.elim⟩
      | RepMin e1 n2 =>
        simp only [run]
        exact ⟨ihI _ _ _, fun _ => ihA _ _ _ trivial, fun hf => hf.elim⟩
      | RepMax e1 n2 =>
        simp only [run]
        exact ⟨ihI _ _ _, fun _ => ihA _ _ _ trivial, fun hf => hf.elim⟩
      | RepMinMax e1 mn2 mx2 =>
        simp only [run]
        exact ⟨ihI _ _ _, fun _ => ihA _ _ _ trivial, fun hf => hf.elim⟩
      | Push e1 =>
        simp only [run]
        cases hx : (run fuel g input (Req.rexpr e1) pos st).1 with
        | ok p =>
          simp only [hx]
          refine ⟨⟨(ihI _ _ _).pfA, (ihI _ _ _).pfL, (ihI _ _ _).pd, ?_⟩, ?_,
            fun hf => hf.elim⟩
          · intro p2 h2
            cases h2
            exact (ihI (Req.rexpr e1) pos st).pb p hx
          · intro _ q hq
            exact Res.noConfusion hq
        | err q =>
          simp only [hx]
          exact ⟨ihI _ _ _, fun _ => ihA _ _ _ trivial, fun hf => hf.elim⟩
        | fatal m =>
          simp only [hx]
          refine ⟨ihI _ _ _, ?_, fun hf => hf.elim⟩
          intro _ q hq
          rw [hx] at hq
          exact Res.noConfusion hq
      | SkipE ss =>
        simp only [run]
        cases ss with
        | nil =>
          exact ⟨invP_pure (fun p h => Res.noConfusion h),
            fun _ => pa_pure (fun q h => Res.noConfusion h), fun hf => hf.elim⟩
        | cons s0 srest =>
          have hsf := skipFold_inv input pos srest
            (skipUntilRes input pos s0)
            (fun p h => skipUntilRes_pb h) (fun q h => skipUntilRes_pa h)
            (fun m h => skipUntilRes_nf h)
          exact ⟨invP_pure hsf.1, fun _ => pa_pure hsf.2, fun hf => hf.elim⟩
    | rrep e mn mx =>
      cases mn with
      | none =>
        simp only [run]
        have hb : InvP pos st
            (rbind (run fuel g input (Req.rexpr (Expr.Opt e)) pos st)
              (fun p st => run fuel g input (Req.rloop e mx 1) p st)) :=
          rbind_inv _ _ _ _ (ihI _ _ _) (fun p hp => ihI _ _ _)
        have hs := stSeqPos_inv pos
          (fun st =>
            rbind (run fuel g input (Req.rexpr (Expr.Opt e)) pos st)
              (fun p st => run fuel g input (Req.rloop e mx 1) p st)) st hb
        exact ⟨hs.1, fun _ => hs.2, fun hf => hf.elim⟩
      | some m =>
        simp only [run]
        by_cases h0 : 0 < m
        · simp only [if_pos h0]
          have hb : InvP pos st
              (rbind
                (rbind (run fuel g input (Req.rexpr e) pos st) (fun p st =>
                  run fuel g input (Req.rchain e (m - 1)) p st))
                (fun p st => run fuel g input (Req.rloop e mx 1) p st)) :=
            rbind_inv _ _ _ _
              (rbind_inv _ _ _ _ (ihI _ _ _) (fun p hp => ihI _ _ _))
              (fun p hp => ihI _ _ _)
          have hs := stSeqPos_inv pos
            (fun st =>
              rbind
                (rbind (run fuel g input (Req.rexpr e) pos st) (fun p st =>
                  run fuel g input (Req.rchain e (m - 1)) p st))
                (fun p st => run fuel g input (Req.rloop e mx 1) p st)) st hb
          exact ⟨hs.1, fun _ => hs.2, fun hf => hf.elim⟩
        · simp only [if_neg h0]
          have hb : InvP pos st
              (rbind (run fuel g input (Req.rexpr (Expr.Opt e)) pos st)
                (fun p st => run fuel g input (Req.rloop e mx 1) p st)) :=
            rbind_inv _ _ _ _ (ihI _ _ _) (fun p hp => ihI _ _ _)
          have hs := stSeqPos_inv pos
            (fun st =>
              rbind (run fuel g input (Req.rexpr (Expr.Opt e)) pos st)
                (fun p st => run fuel g input (Req.rloop e mx 1) p st)) st hb
          exact ⟨hs.1, fun _ => hs.2, fun hf => hf.elim⟩
    | rchain e k =>
      cases k with
      | zero =>
        simp only [run]
        refine ⟨invP_pure ?_, fun hc => hc.elim, fun hf => hf.elim⟩
        intro p h
        cases h
        exact Nat.le_refl pos
      | succ k2 =>
        simp only [run]
        exact ⟨rbind_inv _ _ _ _ (ihI _ _ _) (fun p hp =>
            rbind_inv _ _ _ _ (ihI _ _ _) (fun p2 hp2 => ihI _ _ _)),
          fun hc => hc.elim, fun hf => hf.elim⟩
    | rloop e mx times =>
      have hx : InvP pos st
          (rbind (run fuel g input Req.rskip pos st) (fun p st =>
            run fuel g input (Req.rexpr e) p st)) :=
        rbind_inv _ _ _ _ (ihI _ _ _) (fun p hp => ihI _ _ _)
      cases mx with
      | some m =>
        simp only [run]
        by_cases hts : times ≥ m
        · simp only [if_pos hts]
          refine ⟨invP_pure ?_, ?_, ?_⟩
          · intro p h
            cases h
            exact Nat.le_refl pos
          · intro _ q hq
            exact Res.noConfusion hq
          · intro _ q hq
            exact Res.noConfusion hq
        · simp only [if_neg hts]
          cases hl : (rbind (run fuel g input Req.rskip pos st) (fun p st =>
              run fuel g input (Req.rexpr e) p st)).1 with
          | ok p =>
            simp only [hl]
            refine ⟨hx.chain hl (ihI _ _ _), ?_, ?_⟩
            · intro _ q hq
              exact absurd hq (ihE (Req.rloop e (some m) (times + 1)) p _ trivial q)
            · intro _
              exact ihE (Req.rloop e (some m) (times + 1)) p _ trivial
          | err q =>
            simp only [hl]
            refine ⟨⟨hx.pfA, hx.pfL, hx.pd, ?_⟩, ?_, ?_⟩
            · intro p2 h2
              cases h2
              exact Nat.le_refl pos
            · intro _ q2 hq2
              exact Res.noConfusion hq2
            · intro _ q2 hq2
              exact Res.noConfusion hq2
          | fatal m2 =>
            simp only [hl]
            refine ⟨⟨hx.pfA, hx.pfL, hx.pd, ?_⟩, ?_, ?_⟩
            · intro p2 h2
              exact Res.noConfusion h2
            · intro _ q2 hq2
              exact Res.noConfusion hq2
            · intro _ q2 hq2
              exact Res.noConfusion hq2
      | none =>
        simp only [run]
        cases hl : (rbind (run fuel g input Req.rskip pos st) (fun p st =>
            run fuel g input (Req.rexpr e) p st)).1 with
        | ok p =>
          simp only [hl]
          refine ⟨hx.chain hl (ihI _ _ _), ?_, ?_⟩
          · intro _ q hq
            exact absurd hq (ihE (Req.rloop e none (times + 1)) p _ trivial q)
          · intro _
            exact ihE (Req.rloop e none (times + 1)) p _ trivial
        | err q =>
          simp only [hl]
          refine ⟨⟨hx.pfA, hx.pfL, hx.pd, ?_⟩, ?_, ?_⟩
          · intro p2 h2
            cases h2
            exact Nat.le_refl pos
          · intro _ q2 hq2
            exact Res.noConfusion hq2
          · intro _ q2 hq2
            exact Res.noConfusion hq2
        | fatal m2 =>
          simp only [hl]
          refine ⟨⟨hx.pfA, hx.pfL, hx.pd, ?_⟩, ?_, ?_⟩
          · intro p2 h2
            exact Res.noConfusion h2
          · intro _ q2 hq2
            exact Res.noConfusion hq2
          · intro _ q2 hq2
            exact Res.noConfusion hq2
    | rskip =>
      simp only [run]
      cases hw : (vmGet g "whitespace").isSome with
      | false =>
        cases hc : (vmGet g "comment").isSome with
        | false =>
          simp only [hw, hc]
          refine ⟨invP_pure ?_, ?_, ?_⟩
          · intro p h
            cases h
            exact Nat.le_refl pos
          · intro _ q hq
            exact Res.noConfusion hq
          · intro _ q hq
            exact Res.noConfusion hq
        | true =>
          simp only [hw, hc]
          by_cases ha : st.atomicity = Atomicity.NonAtomic
          · simp only [if_pos ha]
            refine ⟨ihI _ _ _, ?_, ?_⟩
            · intro _ q hq
              exact absurd hq
                (ihE (Req.rposRepeat (Req.rrule "comment")) pos st trivial q)
            · intro _
              exact ihE (Req.rposRepeat (Req.rrule "comment")) pos st trivial
          · simp only [if_neg ha]
            refine ⟨invP_pure ?_, ?_, ?_⟩
            · intro p h
              cases h
              exact Nat.le_refl pos
            · intro _ q hq
              exact Res.noConfusion hq
            · intro _ q hq
              exact Res.noConfusion hq
      | true =>
        cases hc : (vmGet g "comment").isSome with
        | false =>
          simp only [hw, hc]
          by_cases ha : st.atomicity = Atomicity.NonAtomic
          · simp only [if_pos ha]
            refine ⟨ihI _ _ _, ?_, ?_⟩
            · intro _ q hq
              exact absurd hq
                (ihE (Req.rposRepeat (Req.rrule "whitespace")) pos st trivial q)
            · intro _
              exact ihE (Req.rposRepeat (Req.rrule "whitespace")) pos st trivial
          · simp only [if_neg ha]
            refine ⟨invP_pure ?_, ?_, ?_⟩
            · intro p h
              cases h
              exact Nat.le_refl pos
            · intro _ q hq
              exact Res.noConfusion hq
            · intro _ q hq
              exact Res.noConfusion hq
        | true =>
          simp only [hw, hc]
          by_cases ha : st.atomicity = Atomicity.NonAtomic
          · simp only [if_pos ha]
            have hb : InvP pos st
                (rbind (run fuel g input (Req.rposRepeat (Req.rrule "whitespace")) pos st)
                  (fun p st => run fuel g input (Req.rposRepeat Req.rcws) p st)) :=
              rbind_inv _ _ _ _ (ihI _ _ _) (fun p hp => ihI _ _ _)
            have hs := stSeqPos_inv pos
              (fun st =>
                rbind (run fuel g input (Req.rposRepeat (Req.rrule "whitespace")) pos st)
                  (fun p st => run fuel g input (Req.rposRepeat Req.rcws) p st)) st hb
            have hpe : PE
                (rbind (run fuel g input (Req.rposRepeat (Req.rrule "whitespace")) pos st)
                  (fun p st => run fuel g input (Req.rposRepeat Req.rcws) p st)) :=
              rbind_pe _ _ (ihE _ _ _ trivial) (fun p hp => ihE _ _ _ trivial)
            refine ⟨hs.1, fun _ => hs.2, ?_⟩
            intro _
            exact stSeqPos_pe pos
              (fun st =>
                rbind (run fuel g input (Req.rposRepeat (Req.rrule "whitespace")) pos st)
                  (fun p st => run fuel g input (Req.rposRepeat Req.rcws) p st)) st hpe
          · simp only [if_neg ha]
            refine ⟨invP_pure ?_, ?_, ?_⟩
            · intro p h
              cases h
              exact Nat.le_refl pos
            · intro _ q hq
              exact Res.noConfusion hq
            · intro _ q hq
              exact Res.noConfusion hq
    | rposRepeat inner =>
      simp only [run]
      cases hx : (run fuel g input inner pos st).1 with
      | ok p =>
        simp only [hx]
        by_cases hpp : p = pos
        · simp only [if_pos hpp]
          refine ⟨⟨(ihI _ _ _).pfA, (ihI _ _ _).pfL, (ihI _ _ _).pd, ?_⟩, ?_, ?_⟩
          · intro p2 h2
            cases h2
            exact (ihI inner pos st).pb p hx
          · intro _ q hq
            exact Res.noConfusion hq
          · intro _ q hq
            exact Res.noConfusion hq
        · simp only [if_neg hpp]
          refine ⟨(ihI inner pos st).chain hx (ihI _ _ _), ?_, ?_⟩
          · intro _ q hq
            exact absurd hq (ihE (Req.rposRepeat inner) p _ trivial q)
          · intro _
            exact ihE (Req.rposRepeat inner) p _ trivial
      | err q =>
        simp only [hx]
        refine ⟨⟨(ihI _ _ _).pfA, (ihI _ _ _).pfL, (ihI _ _ _).pd, ?_⟩, ?_, ?_⟩
        · intro p2 h2
          cases h2
          exact Nat.le_refl pos
        · intro _ q2 hq2
          exact Res.noConfusion hq2
        · intro _ q2 hq2
          exact Res.noConfusion hq2
      | fatal m =>
        simp only [hx]
        refine ⟨⟨(ihI _ _ _).pfA, (ihI _ _ _).pfL, (ihI _ _ _).pd, ?_⟩, ?_, ?_⟩
        · intro p2 h2
          exact Res.noConfusion h2
        · intro _ q2 hq2
          exact Res.noConfusion hq2
        · intro _ q2 hq2
          exact Res.noConfusion hq2
    | rcws =>
      simp only [run]
      have hb : InvP pos st
          (rbind (run fuel g input (Req.rrule "comment") pos st)
            (fun p st => run fuel g input (Req.rposRepeat (Req.rrule "whitespace")) p st)) :=
        rbind_inv _ _ _ _ (ihI _ _ _) (fun p hp => ihI _ _ _)
      have hs := stSeqPos_inv pos
        (fun st =>
          rbind (run fuel g input (Req.rrule "comment") pos st)
            (fun p st => run fuel g input (Req.rposRepeat (Req.rrule "whitespace")) p st))
        st hb
      exact ⟨hs.1, fun _ => hs.2, fun hf => hf.elim⟩

/-- The basic invariants, in standalone form. -/
theorem runI (g : List Rule) (input : List Char) (fuel : Nat) (req : Req) (pos : Nat)
    (st : ParserState) : InvP pos st (run fuel g input req pos st) :=
  (runInv g input fuel req pos st).1

/-- Rollback on ordinary failure, in equation form: a failing closed
request reports the entry position and leaves the context untouched. -/
theorem runErr {g : List Rule} {input : List Char} {fuel : Nat} {req : Req} {pos : Nat}
    {st : ParserState} {q : Nat} {st2 : ParserState}
    (h : run fuel g input req pos st = (Res.err q, st2)) (hc : Req.closed req) :
    q = pos ∧ st2 = st := by
  have h2 := (runInv g input fuel req pos st).2.1 hc q (by rw [h])
  refine ⟨h2.1, ?_⟩
  have h3 := h2.2
  rw [h] at h3
  exact h3

/-! ### Claim C1: repetition bounds. -/

/-- Claim C1 (code_bug evaluation): `RepMinMax(Literal "a", 2, 4)` at
position 0.  Over `"aaa"` it consumes exactly 3 occurrences and over `"a"`
it fails, as the claim states; but over `"aaaaa"` it consumes **5**
occurrences (success at position 5), not the claimed 4: the greedy loop's
`times` counter starts at 1 even though the mandatory phase already
consumed `min` = 2 occurrences, so the declared `max` is overshot by
`min - 1`. -/
theorem repeat_minmax_overshoot :
    run 50 [] "aaaaa".data (Req.rexpr (Expr.RepMinMax (Expr.Str ['a']) 2 4)) 0 initState
      = (Res.ok 5, initState) ∧
    run 50 [] "aaa".data (Req.rexpr (Expr.RepMinMax (Expr.Str ['a']) 2 4)) 0 initState
      = (Res.ok 3, initState) ∧
    run 50 [] "a".data (Req.rexpr (Expr.RepMinMax (Expr.Str ['a']) 2 4)) 0 initState
      = (Res.err 0, initState) ∧
    run 50 [] "aaa".data (Req.rexpr (Expr.RepExact (Expr.Str ['a']) 2)) 0 initState
      = (Res.ok 3, initState) := by
  refine ⟨?_, ?_, ?_, ?_⟩ <;> decide

/-! ### Claim C2: ordered choice and backtracking purity. -/

/-- Claim C2: `OrderedChoice(lhs, rhs)` first evaluates `lhs`; if `lhs`
succeeds, `rhs` is never evaluated (the choice returns `lhs`'s result
verbatim); if `lhs` fails, the failure reports the original position with
the context (capture stack and token queue) exactly as before the attempt,
and `rhs` is evaluated from that original position and context; and if the
whole choice fails, the queue and stack are unchanged. -/
theorem choice_spec (fuel : Nat) (g : List Rule) (input : List Char) (l r : Expr)
    (pos : Nat) (st : ParserState) :
    (∀ p st2, run fuel g input (Req.rexpr l) pos st = (Res.ok p, st2) →
      run (fuel + 1) g input (Req.rexpr (Expr.Choice l r)) pos st = (Res.ok p, st2)) ∧
    (∀ q st2, run fuel g input (Req.rexpr l) pos st = (Res.err q, st2) →
      q = pos ∧ st2 = st ∧
      run (fuel + 1) g input (Req.rexpr (Expr.Choice l r)) pos st
        = run fuel g input (Req.rexpr r) pos st) ∧
    (∀ q st2,
      run (fuel + 1) g input (Req.rexpr (Expr.Choice l r)) pos st = (Res.err q, st2) →
      q = pos ∧ st2.queue = st.queue ∧ st2.stack = st.stack) := by
  refine ⟨?_, ?_, ?_⟩
  · intro p st2 h
    simp only [run, h]
  · intro q st2 h
    obtain ⟨hq, hst⟩ := runErr h trivial
    refine ⟨hq, hst, ?_⟩
    simp only [run, h]
    rw [hq, hst]
  · intro q st2 h
    cases hx : run fuel g input (Req.rexpr l) pos st with
    | mk r1 s1 =>
      cases r1 with
      | ok p =>
        simp only [run, hx] at h
        injection h with h1 h2
        exact Res.noConfusion h1
      | err q2 =>
        obtain ⟨hq2, hs1⟩ := runErr hx trivial
        subst hq2
        subst hs1
        simp only [run, hx] at h
        obtain ⟨hq, hst2⟩ := runErr h trivial
        exact ⟨hq, by rw [hst2], by rw [hst2]⟩
      | fatal m =>
        simp only [run, hx] at h
        injection h with h1 h2
        exact Res.noConfusion h1

/-- Witness for claim C2 at a concrete input: against `"b"`, the left
alternative `"a"` fails, and the choice equals the right alternative run
from the original position and state. -/
theorem choice_spec_witness :
    run 4 [] "b".data (Req.rexpr (Expr.Choice (Expr.Str ['a']) (Expr.Str ['b']))) 0 initState
      = run 3 [] "b".data (Req.rexpr (Expr.Str ['b'])) 0 initState := by
  have h := (choice_spec 3 [] "b".data (Expr.Str ['a']) (Expr.Str ['b']) 0 initState).2.1
    0 initState (by decide)
  exact h.2.2

/-! ### Claim C6: the reserved `peek` and `pop` operations. -/

/-- Claim C6: with a non-empty capture stack, `peek` matches the literal
text of the top-of-stack capture and leaves the whole context unchanged
whether or not the match succeeds; `pop` matches the same text and removes
the top entry exactly when the match succeeds, leaving the stack unchanged
when it fails; and with an empty capture stack, both `peek` and `pop` are
fatal errors (panics), not ordinary match failures. -/
theorem peek_pop_spec (fuel : Nat) (g : List Rule) (input : List Char) (pos : Nat)
    (q : List QToken) (a : Atomicity) (la : Bool) (sp : Span) (rest : List Span) :
    (run (fuel + 1) g input (Req.rrule "peek") pos
        (ParserState.mk q (sp :: rest) a la)
      = (matchString input pos (spanStr input sp), ParserState.mk q (sp :: rest) a la)) ∧
    (run (fuel + 1) g input (Req.rrule "pop") pos (ParserState.mk q (sp :: rest) a la)
      = match matchString input pos (spanStr input sp) with
        | Res.ok p => (Res.ok p, ParserState.mk q rest a la)
        | rr => (rr, ParserState.mk q (sp :: rest) a la)) ∧
    (run (fuel + 1) g input (Req.rrule "peek") pos (ParserState.mk q [] a la)
      = (Res.fatal "peek was called on empty stack", ParserState.mk q [] a la)) ∧
    (run (fuel + 1) g input (Req.rrule "pop") pos (ParserState.mk q [] a la)
      = (Res.fatal "pop was called on empty stack", ParserState.mk q [] a la)) := by
  refine ⟨rfl, ?_, rfl, rfl⟩
  cases hm : matchString input pos (spanStr input sp) with
  | ok p =>
    simp only [run, hm]
    rfl
  | err q2 =>
    simp only [run, hm]
    rfl
  | fatal m =>
    simp only [run, hm]
    rfl

/-! ### Claim C5: the skip inserter. -/

/-- Claim C5: `skip` never fails on the ordinary channel; on success the
returned position is no earlier than the entry position; it is the
identity (returning `pos` with the context untouched) whenever the grammar
defines neither `whitespace` nor `comment`, and whenever the current
atomicity mode is not `NonAtomic`; and when both rules are defined and the
mode is `NonAtomic` it consumes whitespace repetitions followed by
repetitions of (comment followed by whitespace repetitions), inside one
sequence scope. -/
theorem skip_spec (fuel : Nat) (g : List Rule) (input : List Char) (pos : Nat)
    (st : ParserState) :
    (∀ q st2, run fuel g input Req.rskip pos st ≠ (Res.err q, st2)) ∧
    (∀ p st2, run fuel g input Req.rskip pos st = (Res.ok p, st2) → pos ≤ p) ∧
    (vmGet g "whitespace" = none → vmGet g "comment" = none →
      run (fuel + 1) g input Req.rskip pos st = (Res.ok pos, st)) ∧
    (st.atomicity ≠ Atomicity.NonAtomic →
      run (fuel + 1) g input Req.rskip pos st = (Res.ok pos, st)) ∧
    ((vmGet g "whitespace").isSome = true → (vmGet g "comment").isSome = true →
      st.atomicity = Atomicity.NonAtomic →
      run (fuel + 1) g input Req.rskip pos st
        = stSeqPos pos (fun st =>
            rbind (run fuel g input (Req.rposRepeat (Req.rrule "whitespace")) pos st)
              (fun p st => run fuel g input (Req.rposRepeat Req.rcws) p st)) st) := by
  refine ⟨?_, ?_, ?_, ?_, ?_⟩
  · intro q st2 h
    exact (runInv g input fuel Req.rskip pos st).2.2 trivial q (by rw [h])
  · intro p st2 h
    exact (runI g input fuel Req.rskip pos st).pb p (by rw [h])
  · intro h1 h2
    simp only [run, h1, h2, Option.isSome_none]
  · intro ha
    simp only [run]
    cases hw : (vmGet g "whitespace").isSome <;> cases hc : (vmGet g "comment").isSome <;>
      simp only [if_neg ha]
  · intro h1 h2 ha
    simp only [run, h1, h2, if_pos ha]

/-- Witness for claim C5 at concrete inputs: with `whitespace = " "`
(Silent) over `"  a"`, skip from position 0 succeeds at 2 ≥ 0; and from an
`Atomic` context skip is the identity. -/
theorem skip_spec_witness :
    (0 : Nat) ≤ 2 ∧
    run 31 [Rule.mk "whitespace" RuleType.Silent (Expr.Str [' '])] "  a".data Req.rskip 0
        (ParserState.mk [] [] Atomicity.Atomic false)
      = (Res.ok 0, ParserState.mk [] [] Atomicity.Atomic false) := by
  constructor
  · exact (skip_spec 30 [Rule.mk "whitespace" RuleType.Silent (Expr.Str [' '])]
      "  a".data 0 initState).2.1 2 initState (by decide)
  · exact (skip_spec 30 [Rule.mk "whitespace" RuleType.Silent (Expr.Str [' '])]
      "  a".data 0 (ParserState.mk [] [] Atomicity.Atomic false)).2.2.2.1 (by decide)

/-! ### Claim C7: which texts are decoded before matching. -/

/-- Claim C7 (counterexample): a `ScanToAny` (`Expr::Skip`) node scans for
its **raw** literal text, not the decoded text.  The node with raw literal
`\n` (backslash, `n`) over input `"xy\nz"` (with a literal backslash and
`n` at offsets 2–3 and no newline anywhere) succeeds at offset 2 — the
position of the raw two-character sequence — even though the decoded
literal (a newline) occurs nowhere in the input. -/
theorem skip_literal_raw_cex :
    run 10 [] "xy\\nz".data (Req.rexpr (Expr.SkipE [['\\', 'n']])) 0 initState
      = (Res.ok 2, initState) ∧
    unescape ['\\', 'n'] = some ['\n'] ∧
    findFrom "xy\\nz".data ['\n'] 0 = none := by
  refine ⟨?_, ?_, ?_⟩ <;> decide

/-- Claim C7 (amended): `Literal`, `LiteralInsensitive` and the two
`CharRange` endpoints are matched against the output of the escape decoder
applied to their raw grammar text; but the literals of `ScanToAny`
(`Expr::Skip`) are scanned for as raw, undecoded text. -/
theorem scan_literals_amended (fuel : Nat) (g : List Rule) (input : List Char)
    (pos : Nat) (st : ParserState) :
    (∀ s t, unescape s = some t →
      run (fuel + 1) g input (Req.rexpr (Expr.Str s)) pos st
        = (matchString input pos t, st)) ∧
    (∀ s t, unescape s = some t →
      run (fuel + 1) g input (Req.rexpr (Expr.Insens s)) pos st
        = (matchInsensitive input pos t, st)) ∧
    (∀ ls hs lc lt hc ht, unescape ls = some (lc :: lt) → unescape hs = some (hc :: ht) →
      run (fuel + 1) g input (Req.rexpr (Expr.Range ls hs)) pos st
        = (matchRange input pos lc hc, st)) ∧
    (∀ s0 srest,
      run (fuel + 1) g input (Req.rexpr (Expr.SkipE (s0 :: srest))) pos st
        = (srest.foldl (fun acc s => skipCombine acc (skipUntilRes input pos s))
            (skipUntilRes input pos s0), st)) := by
  refine ⟨?_, ?_, ?_, ?_⟩
  · intro s t h
    simp only [run, h]
  · intro s t h
    simp only [run, h]
  · intro ls hs lc lt hc ht hu1 hu2
    simp only [run, hu1, hu2]
  · intro s0 srest
    simp only [run]

/-- Witness for the amended claim C7 at concrete inputs: the literal node
with raw text `a\nb` matches its decoded text, and the scan node with raw
text `\n` scans for the raw two characters. -/
theorem scan_literals_amended_witness :
    run 3 [] "a\nb".data (Req.rexpr (Expr.Str ['a', '\\', 'n', 'b'])) 0 initState
      = (matchString "a\nb".data 0 ['a', '\n', 'b'], initState) ∧
    run 3 [] "xy\\nz".data (Req.rexpr (Expr.SkipE [['\\', 'n']])) 0 initState
      = (skipUntilRes "xy\\nz".data 0 ['\\', 'n'], initState) := by
  constructor
  · exact (scan_literals_amended 2 [] "a\nb".data 0 initState).1
      ['a', '\\', 'n', 'b'] ['a', '\n', 'b'] (by decide)
  · exact (scan_literals_amended 2 [] "xy\\nz".data 0 initState).2.2.2 ['\\', 'n'] []

/-! ### Claim C8: inclusive character ranges. -/

/-- Claim C8: a `CharRange(low, high)` node whose endpoints decode to
texts starting with characters `lc` and `hc` delegates to the inclusive
range matcher: it succeeds, consuming exactly one code point, if and only
if the next input code point `c` satisfies `lc ≤ c ≤ hc` (both endpoints
inclusive — in particular `c = hc` matches), and fails at the entry
position otherwise or at end of input. -/
theorem char_range_inclusive (fuel : Nat) (g : List Rule) (input : List Char)
    (pos : Nat) (st : ParserState) (ls hs : List Char) (lc hc : Char)
    (lt ht : List Char)
    (h1 : unescape ls = some (lc :: lt)) (h2 : unescape hs = some (hc :: ht)) :
    run (fuel + 1) g input (Req.rexpr (Expr.Range ls hs)) pos st
      = (matchRange input pos lc hc, st) ∧
    (∀ c rest2, input.drop pos = c :: rest2 →
      (lc ≤ c ∧ c ≤ hc → matchRange input pos lc hc = Res.ok (pos + 1)) ∧
      (¬(lc ≤ c ∧ c ≤ hc) → matchRange input pos lc hc = Res.err pos)) ∧
    (input.drop pos = [] → matchRange input pos lc hc = Res.err pos) := by
  refine ⟨?_, ?_, ?_⟩
  · simp only [run, h1, h2]
  · intro c rest2 hd
    constructor
    · intro hin
      unfold matchRange
      rw [hd]
      simp [hin.1, hin.2]
    · intro hout
      unfold matchRange
      rw [hd]
      simp [hout]
  · intro hd
    unfold matchRange
    rw [hd]

/-- Witness for claim C8 at a concrete input: range `'a'..'c'` against
input `"c"` — the character equal to the high endpoint matches, consuming
one code point. -/
theorem char_range_inclusive_witness :
    run 3 [] "c".data (Req.rexpr (Expr.Range ['a'] ['c'])) 0 initState
      = (matchRange "c".data 0 'a' 'c', initState) ∧
    matchRange "c".data 0 'a' 'c' = Res.ok 1 := by
  have h := char_range_inclusive 2 [] "c".data 0 initState ['a'] ['c'] 'a' 'c' [] []
    (by decide) (by decide)
  refine ⟨h.1, ?_⟩
  exact (h.2.1 'c' [] (by decide)).1 (by decide)

/-! ### Claim C9: the escape decoder. -/

theorem splitBrace_len : ∀ {t ds rest : List Char},
    splitBrace t = some (ds, rest) → t.length = ds.length + 1 + rest.length := by
  intro t
  induction t with
  | nil =>
    intro ds rest h
    cases h
  | cons c t2 ih =>
    intro ds rest h
    unfold splitBrace at h
    split at h
    · cases h
      simp only [List.length_cons, List.length_nil]
      omega
    · revert h
      cases hs : splitBrace t2 with
      | none => intro h; cases h
      | some pr =>
        intro h
        cases h
        have := ih hs
        simp [this]
        omega

theorem splitBrace_app (ds rest : List Char) (h : ∀ c ∈ ds, c ≠ '\x7d') :
    splitBrace (ds ++ '\x7d' :: rest) = some (ds, rest) := by
  induction ds with
  | nil =>
    unfold splitBrace
    simp
  | cons c ds2 ih =>
    have hc : c ≠ '\x7d' := h c (List.mem_cons_self c ds2)
    have ih2 := ih (fun c2 hm => h c2 (List.mem_cons_of_mem c hm))
    simp only [List.cons_append, splitBrace, List.append_eq]
    rw [if_neg hc, ih2]

theorem splitBrace_noBrace (ds : List Char) (h : ∀ c ∈ ds, c ≠ '\x7d') :
    splitBrace ds = none := by
  induction ds with
  | nil => rfl
  | cons c ds2 ih =>
    have hc : c ≠ '\x7d' := h c (List.mem_cons_self c ds2)
    have ih2 := ih (fun c2 hm => h c2 (List.mem_cons_of_mem c hm))
    simp only [splitBrace]
    rw [if_neg hc, ih2]

/-- One-step unfolding of the decoder body on a cons cell with a positive
budget. -/
theorem unescapeAux_succ_cons (k : Nat) (c : Char) (t : List Char) :
    unescapeAux (k + 1) (c :: t)
      = (if c = '\\' then
          match t with
          | [] => none
          | e :: t1 =>
            if e = '\x22' then Option.map (List.cons '\x22') (unescapeAux k t1)
            else if e = '\\' then Option.map (List.cons '\\') (unescapeAux k t1)
            else if e = 'r' then Option.map (List.cons '\r') (unescapeAux k t1)
            else if e = 'n' then Option.map (List.cons '\n') (unescapeAux k t1)
            else if e = 't' then Option.map (List.cons '\t') (unescapeAux k t1)
            else if e = '0' then Option.map (List.cons (Char.ofNat 0)) (unescapeAux k t1)
            else if e = '\x27' then Option.map (List.cons '\x27') (unescapeAux k t1)
            else if e = 'x' then
              match t1 with
              | h1 :: h2 :: t2 =>
                match parseHex [h1, h2] with
                | some v => Option.map (List.cons (Char.ofNat v)) (unescapeAux k t2)
                | none => none
              | _ => none
            else if e = 'u' then
              match t1 with
              | b :: t2 =>
                if b = '\x7b' then
                  match splitBrace t2 with
                  | some (ds, rest) =>
                    if ds.length < 2 ∨ 6 < ds.length then none
                    else
                      match parseHex ds with
                      | some v =>
                        match charFromU32 v with
                        | some ch => Option.map (List.cons ch) (unescapeAux k rest)
                        | none => none
                      | none => none
                  | none => none
                else none
              | [] => none
            else none
        else Option.map (List.cons c) (unescapeAux k t)) := rfl

theorem unescapeAux_nil (k : Nat) : unescapeAux k [] = some [] := by
  cases k <;> rfl

/-- The decoder body is insensitive to the exact budget as long as the
budget covers the input length. -/
theorem unescapeAux_mono : ∀ k1 : Nat, ∀ s : List Char, ∀ k2 : Nat,
    s.length ≤ k1 → s.length ≤ k2 → unescapeAux k1 s = unescapeAux k2 s := by
  intro k1
  induction k1 with
  | zero =>
    intro s k2 h1 h2
    cases s with
    | nil => cases k2 <;> rfl
    | cons c t => simp at h1
  | succ k1 ih =>
    intro s k2 h1 h2
    cases s with
    | nil => cases k2 <;> rfl
    | cons c t =>
      cases k2 with
      | zero => simp at h2
      | succ k2 =>
        have hta : t.length ≤ k1 := by
          simp only [List.length_cons] at h1
          omega
        have htb : t.length ≤ k2 := by
          simp only [List.length_cons] at h2
          omega
        simp only [unescapeAux_succ_cons]
        by_cases hbs : c = '\\'
        · simp only [if_pos hbs]
          cases t with
          | nil => rfl
          | cons e t1 =>
            have ht1a : t1.length ≤ k1 := by
              simp only [List.length_cons] at hta
              omega
            have ht1b : t1.length ≤ k2 := by
              simp only [List.length_cons] at htb
              omega
            by_cases he1 : e = '\x22'
            · simp only [if_pos he1]
              rw [ih t1 k2 ht1a ht1b]
            simp only [if_neg he1]
            by_cases he2 : e = '\\'
            · simp only [if_pos he2]
              rw [ih t1 k2 ht1a ht1b]
            simp only [if_neg he2]
            by_cases he3 : e = 'r'
            · simp only [if_pos he3]
              rw [ih t1 k2 ht1a ht1b]
            simp only [if_neg he3]
            by_cases he4 : e = 'n'
            · simp only [if_pos he4]
              rw [ih t1 k2 ht1a ht1b]
            simp only [if_neg he4]
            by_cases he5 : e = 't'
            · simp only [if_pos he5]
              rw [ih t1 k2 ht1a ht1b]
            simp only [if_neg he5]
            by_cases he6 : e = '0'
            · simp only [if_pos he6]
              rw [ih t1 k2 ht1a ht1b]
            simp only [if_neg he6]
            by_cases he7 : e = '\x27'
            · simp only [if_pos he7]
              rw [ih t1 k2 ht1a ht1b]
            simp only [if_neg he7]
            by_cases he8 : e = 'x'
            · simp only [if_pos he8]
              cases t1 with
              | nil => rfl
              | cons a t2 =>
                cases t2 with
                | nil => rfl
                | cons b t3 =>
                  have ht3a : t3.length ≤ k1 := by
                    simp only [List.length_cons] at ht1a
                    omega
                  have ht3b : t3.length ≤ k2 := by
                    simp only [List.length_cons] at ht1b
                    omega
                  dsimp only
                  cases hph : parseHex [a, b] with
                  | none => simp only [hph]
                  | some v =>
                    simp only [hph]
                    rw [ih t3 k2 ht3a ht3b]
            simp only [if_neg he8]
            by_cases he9 : e = 'u'
            · simp only [if_pos he9]
              cases t1 with
              | nil => rfl
              | cons b t2 =>
                dsimp only
                by_cases hb : b = '\x7b'
                · simp only [if_pos hb]
                  cases hsb : splitBrace t2 with
                  | none => simp only [hsb]
                  | some pr =>
                    obtain ⟨ds, rest⟩ := pr
                    have hrest : t2.length = ds.length + 1 + rest.length :=
                      splitBrace_len hsb
                    have hra : rest.length ≤ k1 := by
                      simp only [List.length_cons] at ht1a
                      omega
                    have hrb : rest.length ≤ k2 := by
                      simp only [List.length_cons] at ht1b
                      omega
                    simp only [hsb]
                    by_cases hbnd : ds.length < 2 ∨ 6 < ds.length
                    · simp only [if_pos hbnd]
                    · simp only [if_neg hbnd]
                      cases hph : parseHex ds with
                      | none => simp only [hph]
                      | some v =>
                        simp only [hph]
                        cases hch : charFromU32 v with
                        | none => simp only [hch]
                        | some ch =>
                          simp only [hch]
                          rw [ih rest k2 hra hrb]
                · simp only [if_neg hb]
            simp only [if_neg he9]
        · simp only [if_neg hbs]
          rw [ih t k2 hta htb]

/-- Any sufficient budget computes `unescape`. -/
theorem unescapeAux_eq {k : Nat} {s : List Char} (h : s.length ≤ k) :
    unescapeAux k s = unescape s :=
  unescapeAux_mono k s s.length h (Nat.le_refl _)

theorem parseHex_two {a b : Char} {v1 v2 : Nat} (ha : hexVal a = some v1)
    (hb : hexVal b = some v2) : parseHex [a, b] = some (16 * v1 + v2) := by
  unfold parseHex
  simp only [parseHexAux, ha, hb]
  congr 1
  ring

theorem parseHex_two_bad1 {a b : Char} (ha : hexVal a = none) :
    parseHex [a, b] = none := by
  unfold parseHex
  simp only [parseHexAux, ha]

theorem parseHex_two_bad2 {a b : Char} (hb : hexVal b = none) :
    parseHex [a, b] = none := by
  unfold parseHex
  cases ha : hexVal a with
  | none => simp only [parseHexAux, ha]
  | some v => simp only [parseHexAux, ha, hb]

/-- Claim C9: the escape decoder maps each recognized escape to its
designated character (`\"`, `\\`, `\r`, `\n`, `\t`, `\0`, `\'`, `\xHH`
with exactly two hex digits giving the byte value as a scalar, and
`\u`-brace escapes with 2–6 hex digits giving that Unicode scalar), passes
non-escape characters through unchanged, and fails on any other escape
character, a trailing lone backslash, a truncated `\x`, a `\u` without an
opening or closing brace, a digit count outside 2–6, or a value that is
not a valid Unicode scalar. -/
theorem unescape_spec :
    (unescape [] = some []) ∧
    (∀ t, unescape ('\\' :: '\x22' :: t) = Option.map (List.cons '\x22') (unescape t)) ∧
    (∀ t, unescape ('\\' :: '\\' :: t) = Option.map (List.cons '\\') (unescape t)) ∧
    (∀ t, unescape ('\\' :: 'r' :: t) = Option.map (List.cons '\r') (unescape t)) ∧
    (∀ t, unescape ('\\' :: 'n' :: t) = Option.map (List.cons '\n') (unescape t)) ∧
    (∀ t, unescape ('\\' :: 't' :: t) = Option.map (List.cons '\t') (unescape t)) ∧
    (∀ t, unescape ('\\' :: '0' :: t)
      = Option.map (List.cons (Char.ofNat 0)) (unescape t)) ∧
    (∀ t, unescape ('\\' :: '\x27' :: t) = Option.map (List.cons '\x27') (unescape t)) ∧
    (∀ c t, c ≠ '\\' → unescape (c :: t) = Option.map (List.cons c) (unescape t)) ∧
    (unescape ['\\'] = none) ∧
    (∀ e t, e ∉ ['\x22', '\\', 'r', 'n', 't', '0', '\x27', 'x', 'u'] →
      unescape ('\\' :: e :: t) = none) ∧
    (∀ a b t v1 v2, hexVal a = some v1 → hexVal b = some v2 →
      unescape ('\\' :: 'x' :: a :: b :: t)
        = Option.map (List.cons (Char.ofNat (16 * v1 + v2))) (unescape t)) ∧
    (∀ a b t, hexVal a = none → unescape ('\\' :: 'x' :: a :: b :: t) = none) ∧
    (∀ a b t, hexVal b = none → unescape ('\\' :: 'x' :: a :: b :: t) = none) ∧
    (unescape ['\\', 'x'] = none) ∧
    (∀ a, unescape ['\\', 'x', a] = none) ∧
    (unescape ['\\', 'u'] = none) ∧
    (∀ b t, b ≠ '\x7b' → unescape ('\\' :: 'u' :: b :: t) = none) ∧
    (∀ ds t v, (∀ c ∈ ds, c ≠ '\x7d') → 2 ≤ ds.length → ds.length ≤ 6 →
      parseHex ds = some v → (v < 0xd800 ∨ (0xe000 ≤ v ∧ v < 0x110000)) →
      unescape ('\\' :: 'u' :: '\x7b' :: (ds ++ '\x7d' :: t))
        = Option.map (List.cons (Char.ofNat v)) (unescape t)) ∧
    (∀ ds t v, (∀ c ∈ ds, c ≠ '\x7d') → parseHex ds = some v →
      ¬(v < 0xd800 ∨ (0xe000 ≤ v ∧ v < 0x110000)) →
      unescape ('\\' :: 'u' :: '\x7b' :: (ds ++ '\x7d' :: t)) = none) ∧
    (∀ ds t, (∀ c ∈ ds, c ≠ '\x7d') → (ds.length < 2 ∨ 6 < ds.length) →
      unescape ('\\' :: 'u' :: '\x7b' :: (ds ++ '\x7d' :: t)) = none) ∧
    (∀ ds, (∀ c ∈ ds, c ≠ '\x7d') → unescape ('\\' :: 'u' :: '\x7b' :: ds) = none) := by
  refine ⟨rfl, ?_, ?_, ?_, ?_, ?_, ?_, ?_, ?_, by decide, ?_, ?_, ?_, ?_, by decide, ?_,
    by decide, ?_, ?_, ?_, ?_, ?_⟩
  · intro t
    simp only [unescape, List.length_cons]
    rw [unescapeAux_succ_cons, if_pos rfl]
    dsimp only
    rw [if_pos rfl, unescapeAux_eq (by omega)]
    rfl
  · intro t
    simp only [unescape, List.length_cons]
    rw [unescapeAux_succ_cons, if_pos rfl]
    dsimp only
    rw [if_neg (by decide), if_pos rfl, unescapeAux_eq (by omega)]
    rfl
  · intro t
    simp only [unescape, List.length_cons]
    rw [unescapeAux_succ_cons, if_pos rfl]
    dsimp only
    rw [if_neg (by decide), if_neg (by decide), if_pos rfl, unescapeAux_eq (by omega)]
    rfl
  · intro t
    simp only [unescape, List.length_cons]
    rw [unescapeAux_succ_cons, if_pos rfl]
    dsimp only
    rw [if_neg (by decide), if_neg (by decide), if_neg (by decide), if_pos rfl,
      unescapeAux_eq (by omega)]
    rfl
  · intro t
    simp only [unescape, List.length_cons]
    rw [unescapeAux_succ_cons, if_pos rfl]
    dsimp only
    rw [if_neg (by decide), if_neg (by decide), if_neg (by decide), if_neg (by decide),
      if_pos rfl, unescapeAux_eq (by omega)]
    rfl
  · intro t
    simp only [unescape, List.length_cons]
    rw [unescapeAux_succ_cons, if_pos rfl]
    dsimp only
    rw [if_neg (by decide), if_neg (by decide), if_neg (by decide), if_neg (by decide),
      if_neg (by decide), if_pos rfl, unescapeAux_eq (by omega)]
    rfl
  · intro t
    simp only [unescape, List.length_cons]
    rw [unescapeAux_succ_cons, if_pos rfl]
    dsimp only
    rw [if_neg (by decide), if_neg (by decide), if_neg (by decide), if_neg (by decide),
      if_neg (by decide), if_neg (by decide), if_pos rfl, unescapeAux_eq (by omega)]
    rfl
  · intro c t hc
    simp only [unescape, List.length_cons]
    rw [unescapeAux_succ_cons, if_neg hc, unescapeAux_eq (Nat.le_refl _)]
  · intro e t he
    simp only [List.mem_cons, not_or] at he
    obtain ⟨n1, n2, n3, n4, n5, n6, n7, n8, n9, -⟩ := he
    simp only [unescape, List.length_cons]
    rw [unescapeAux_succ_cons, if_pos rfl]
    dsimp only
    rw [if_neg n1, if_neg n2, if_neg n3, if_neg n4, if_neg n5, if_neg n6, if_neg n7,
      if_neg n8, if_neg n9]
  · intro a b t v1 v2 ha hb
    simp only [unescape, List.length_cons]
    rw [unescapeAux_succ_cons, if_pos rfl]
    dsimp only
    rw [if_neg (by decide), if_neg (by decide), if_neg (by decide), if_neg (by decide),
      if_neg (by decide), if_neg (by decide), if_neg (by decide), if_pos rfl]
    simp only [parseHex_two ha hb]
    rw [unescapeAux_eq (by omega)]
    rfl
  · intro a b t ha
    simp only [unescape, List.length_cons]
    rw [unescapeAux_succ_cons, if_pos rfl]
    dsimp only
    rw [if_neg (by decide), if_neg (by decide), if_neg (by decide), if_neg (by decide),
      if_neg (by decide), if_neg (by decide), if_neg (by decide), if_pos rfl]
    simp only [parseHex_two_bad1 ha]
  · intro a b t hb
    simp only [unescape, List.length_cons]
    rw [unescapeAux_succ_cons, if_pos rfl]
    dsimp only
    rw [if_neg (by decide), if_neg (by decide), if_neg (by decide), if_neg (by decide),
      if_neg (by decide), if_neg (by decide), if_neg (by decide), if_pos rfl]
    simp only [parseHex_two_bad2 hb]
  · intro a
    simp only [unescape, List.length_cons]
    rw [unescapeAux_succ_cons, if_pos rfl]
    dsimp only
    rw [if_neg (by decide), if_neg (by decide), if_neg (by decide), if_neg (by decide),
      if_neg (by decide), if_neg (by decide), if_neg (by decide), if_pos rfl]
  · intro b t hb
    simp only [unescape, List.length_cons]
    rw [unescapeAux_succ_cons, if_pos rfl]
    dsimp only
    rw [if_neg (by decide), if_neg (by decide), if_neg (by decide), if_neg (by decide),
      if_neg (by decide), if_neg (by decide), if_neg (by decide), if_neg (by decide),
      if_pos rfl]
    rw [if_neg hb]
  · intro ds t v hnb hl2 hl6 hph hv
    simp only [unescape, List.length_cons, List.length_append]
    rw [unescapeAux_succ_cons, if_pos rfl]
    dsimp only
    rw [if_neg (by decide), if_neg (by decide), if_neg (by decide), if_neg (by decide),
      if_neg (by decide), if_neg (by decide), if_neg (by decide), if_neg (by decide),
      if_pos rfl]
    rw [if_pos rfl]
    simp only [splitBrace_app ds t hnb]
    rw [if_neg (by omega)]
    simp only [hph]
    have hch : charFromU32 v = some (Char.ofNat v) := by
      unfold charFromU32
      rw [if_pos hv]
    simp only [hch]
    rw [unescapeAux_eq (by omega)]
    rfl
  · intro ds t v hnb hph hv
    simp only [unescape, List.length_cons, List.length_append]
    rw [unescapeAux_succ_cons, if_pos rfl]
    dsimp only
    rw [if_neg (by decide), if_neg (by decide), if_neg (by decide), if_neg (by decide),
      if_neg (by decide), if_neg (by decide), if_neg (by decide), if_neg (by decide),
      if_pos rfl]
    rw [if_pos rfl]
    simp only [splitBrace_app ds t hnb]
    by_cases hbnd : ds.length < 2 ∨ 6 < ds.length
    · rw [if_pos hbnd]
    · rw [if_neg hbnd]
      simp only [hph]
      have hch : charFromU32 v = none := by
        unfold charFromU32
        rw [if_neg hv]
      simp only [hch]
  · intro ds t hnb hbnd
    simp only [unescape, List.length_cons, List.length_append]
    rw [unescapeAux_succ_cons, if_pos rfl]
    dsimp only
    rw [if_neg (by decide), if_neg (by decide), if_neg (by decide), if_neg (by decide),
      if_neg (by decide), if_neg (by decide), if_neg (by decide), if_neg (by decide),
      if_pos rfl]
    rw [if_pos rfl]
    simp only [splitBrace_app ds t hnb]
    rw [if_pos hbnd]
  · intro ds hnb
    simp only [unescape, List.length_cons]
    rw [unescapeAux_succ_cons, if_pos rfl]
    dsimp only
    rw [if_neg (by decide), if_neg (by decide), if_neg (by decide), if_neg (by decide),
      if_neg (by decide), if_neg (by decide), if_neg (by decide), if_neg (by decide),
      if_pos rfl]
    rw [if_pos rfl]
    simp only [splitBrace_noBrace ds hnb]

/-- Witness for claim C9 at concrete inputs: `\x55` decodes to the byte
0x55 (`U`), and `\u`-brace `101` decodes to the scalar 0x101, each applied
through the decoder specification. -/
theorem unescape_spec_witness :
    unescape ['\\', 'x', '5', '5', 'z'] = some [Char.ofNat 85, 'z'] ∧
    unescape ['\\', 'u', '\x7b', '1', '0', '1', '\x7d', 'z']
      = some [Char.ofNat 257, 'z'] := by
  constructor
  · have h := unescape_spec.2.2.2.2.2.2.2.2.2.2.2.1 '5' '5' ['z'] 5 5
      (by decide) (by decide)
    rw [h]
    decide
  · have h := unescape_spec.2.2.2.2.2.2.2.2.2.2.2.2.2.2.2.2.2.2.1
      ['1', '0', '1'] ['z'] 257 (by decide) (by decide) (by decide) (by decide)
      (by decide)
    calc unescape ['\\', 'u', '\x7b', '1', '0', '1', '\x7d', 'z']
        = unescape ('\\' :: 'u' :: '\x7b' :: (['1', '0', '1'] ++ '\x7d' :: ['z'])) := rfl
      _ = Option.map (List.cons (Char.ofNat 257)) (unescape ['z']) := h
      _ = some [Char.ofNat 257, 'z'] := by decide

/-! ### Claim C3: dispatch of the `whitespace` and `comment` rules. -/

/-- Claim C3 (counterexample): a `whitespace` rule declared
`CompoundAtomic` *does* get a token emitted for it (and its body runs in
`CompoundAtomic`, not `Atomic`, mode), refuting "a token is emitted if and
only if the declared kind is Normal or Atomic".  Dispatching it over `" "`
from the initial context succeeds and leaves whitespace start/end tokens
in the queue. -/
theorem ws_dispatch_cex :
    run 20 [Rule.mk "whitespace" RuleType.CompoundAtomic (Expr.Str [' '])] " ".data
        (Req.rrule "whitespace") 0 initState
      = (Res.ok 1,
         ParserState.mk [QToken.tokStart "whitespace" 0, QToken.tokEnd "whitespace" 1]
           [] Atomicity.NonAtomic false) := by
  decide

/-! ### Claim C4: dispatch of ordinary `CompoundAtomic` rules. -/

/-- An initial segment decomposes its extension. -/
theorem isPre_decomp {α : Type} {q l : List α} (h : IsPre q l) :
    l = q ++ l.drop q.length := by
  conv_lhs => rw [← List.take_append_drop q.length l]
  rw [isPre_take h]

/-- When entered in `Atomic` mode the rule-entry wrapper is inert: it adds
no tokens and (by rollback of the body) changes nothing on failure, so the
dispatch is observationally just the body. -/
theorem stRule_atomic_inert (n : String) (g : List Rule) (input : List Char)
    (fuel : Nat) (e : Expr) (pos : Nat) (s : ParserState)
    (hA : s.atomicity = Atomicity.Atomic) :
    stRule n pos (fun st p => run fuel g input (Req.rexpr e) p st) s
      = run fuel g input (Req.rexpr e) pos s := by
  simp only [stRule]
  have hcond : ¬(s.lookahead = false ∧ s.atomicity ≠ Atomicity.Atomic) := by
    intro hcon
    exact hcon.2 hA
  rw [if_neg hcond]
  cases hx : (run fuel g input (Req.rexpr e) pos s).1 with
  | ok p =>
    simp only [hx]
    rw [if_neg hcond]
    have hxpair : run fuel g input (Req.rexpr e) pos s
        = (Res.ok p, (run fuel g input (Req.rexpr e) pos s).2) := by
      calc run fuel g input (Req.rexpr e) pos s
          = ((run fuel g input (Req.rexpr e) pos s).1,
             (run fuel g input (Req.rexpr e) pos s).2) := rfl
        _ = _ := by rw [hx]
    exact hxpair.symm
  | err q =>
    simp only [hx]
    have hpa := (runInv g input fuel (Req.rexpr e) pos s).2.1 trivial q hx
    have hxpair : run fuel g input (Req.rexpr e) pos s = (Res.err q, s) := by
      calc run fuel g input (Req.rexpr e) pos s
          = ((run fuel g input (Req.rexpr e) pos s).1,
             (run fuel g input (Req.rexpr e) pos s).2) := rfl
        _ = _ := by rw [hx, hpa.2]
    rw [hpa.2, isPre_take (isPre_refl s.queue), psEtaQ]
    exact hxpair.symm
  | fatal m =>
    simp only [hx]
    have hxpair : run fuel g input (Req.rexpr e) pos s
        = (Res.fatal m, (run fuel g input (Req.rexpr e) pos s).2) := by
      calc run fuel g input (Req.rexpr e) pos s
          = ((run fuel g input (Req.rexpr e) pos s).1,
             (run fuel g input (Req.rexpr e) pos s).2) := rfl
        _ = _ := by rw [hx]
    exact hxpair.symm

/-- When the entry context is outside lookahead and not in `Atomic` mode,
a successful rule-entry wrapper brackets the body's added tokens between a
start token at the entry position and an end token at the final
position. -/
theorem stRule_emits (n : String) (pos : Nat) (f : ParserState → Nat → RP)
    (s : ParserState) (hla : s.lookahead = false) (hat : s.atomicity ≠ Atomicity.Atomic)
    (hpd : IsPre (s.queue ++ [QToken.tokStart n pos])
      ((f { s with queue := s.queue ++ [QToken.tokStart n pos] } pos).2).queue)
    {p : Nat} (h1 : (stRule n pos f s).1 = Res.ok p) :
    ∃ delta, (stRule n pos f s).2.queue
      = s.queue ++ [QToken.tokStart n pos] ++ delta ++ [QToken.tokEnd n p] := by
  simp only [stRule] at h1 ⊢
  rw [if_pos ⟨hla, hat⟩] at h1 ⊢
  cases hx : (f { s with queue := s.queue ++ [QToken.tokStart n pos] } pos).1 with
  | ok p2 =>
    simp only [hx] at h1 ⊢
    cases h1
    rw [if_pos ⟨hla, hat⟩]
    refine ⟨((f { s with queue := s.queue ++ [QToken.tokStart n pos] } pos).2).queue.drop
      (s.queue ++ [QToken.tokStart n pos]).length, ?_⟩
    conv_lhs => rw [isPre_decomp hpd]
  | err q =>
    simp only [hx] at h1
    exact Res.noConfusion h1
  | fatal m =>
    simp only [hx] at h1
    exact Res.noConfusion h1

/-- Claim C3 (amended): dispatching a `whitespace` or `comment` rule wraps
its body in `Atomic` mode for declared kinds Normal, Silent, Atomic and
NonAtomic, but in `CompoundAtomic` mode for kind CompoundAtomic.  The
rule's own token pair brackets the match for kinds Normal and Atomic when
the caller is outside lookahead and not already in `Atomic` mode, and for
kind CompoundAtomic whenever the caller is outside lookahead; for kinds
Silent and NonAtomic the dispatch adds no token for the rule itself — it
is observationally the body run in `Atomic` mode. -/
theorem ws_dispatch_amended (fuel : Nat) (g : List Rule) (input : List Char)
    (n : String) (rl : Rule) (pos : Nat) (st : ParserState)
    (hn : n = "whitespace" ∨ n = "comment") (hg : vmGet g n = some rl) :
    ((rl.ty = RuleType.Silent ∨ rl.ty = RuleType.NonAtomic) →
      run (fuel + 1) g input (Req.rrule n) pos st
        = stAtomic Atomicity.Atomic
            (fun s => run fuel g input (Req.rexpr rl.expr) pos s) st) ∧
    ((rl.ty = RuleType.Normal ∨ rl.ty = RuleType.Atomic) →
      run (fuel + 1) g input (Req.rrule n) pos st
        = stRule n pos (fun s p1 => stAtomic Atomicity.Atomic
            (fun s2 => run fuel g input (Req.rexpr rl.expr) p1 s2) s) st ∧
      (st.lookahead = false → st.atomicity ≠ Atomicity.Atomic →
        ∀ p st2, run (fuel + 1) g input (Req.rrule n) pos st = (Res.ok p, st2) →
          ∃ delta, st2.queue
            = st.queue ++ [QToken.tokStart n pos] ++ delta ++ [QToken.tokEnd n p])) ∧
    (rl.ty = RuleType.CompoundAtomic →
      run (fuel + 1) g input (Req.rrule n) pos st
        = stAtomic Atomicity.CompoundAtomic
            (fun s => stRule n pos (fun s2 p1 =>
              run fuel g input (Req.rexpr rl.expr) p1 s2) s) st ∧
      (st.lookahead = false →
        ∀ p st2, run (fuel + 1) g input (Req.rrule n) pos st = (Res.ok p, st2) →
          ∃ delta, st2.queue
            = st.queue ++ [QToken.tokStart n pos] ++ delta ++ [QToken.tokEnd n p])) := by
  have hrn : rl.name = n := vmGet_name hg
  have hnb : ¬n = "any" ∧ ¬n = "eoi" ∧ ¬n = "soi" ∧ ¬n = "peek" ∧ ¬n = "pop" := by
    rcases hn with h | h <;> subst h <;> exact ⟨by decide, by decide, by decide,
      by decide, by decide⟩
  have hwc : rl.name = "whitespace" ∨ rl.name = "comment" := by
    rw [hrn]
    exact hn
  have hred : run (fuel + 1) g input (Req.rrule n) pos st
      = match rl.ty with
        | RuleType.Normal =>
          stRule rl.name pos (fun s p1 => stAtomic Atomicity.Atomic
            (fun s2 => run fuel g input (Req.rexpr rl.expr) p1 s2) s) st
        | RuleType.Silent =>
          stAtomic Atomicity.Atomic
            (fun s => run fuel g input (Req.rexpr rl.expr) pos s) st
        | RuleType.Atomic =>
          stRule rl.name pos (fun s p1 => stAtomic Atomicity.Atomic
            (fun s2 => run fuel g input (Req.rexpr rl.expr) p1 s2) s) st
        | RuleType.CompoundAtomic =>
          stAtomic Atomicity.CompoundAtomic
            (fun s => stRule rl.name pos (fun s2 p1 =>
              run fuel g input (Req.rexpr rl.expr) p1 s2) s) st
        | RuleType.NonAtomic =>
          stAtomic Atomicity.Atomic
            (fun s => stRule rl.name pos (fun s2 p1 =>
              run fuel g input (Req.rexpr rl.expr) p1 s2) s) st := by
    simp only [run]
    rw [if_neg hnb.1, if_neg hnb.2.1, if_neg hnb.2.2.1, if_neg hnb.2.2.2.1,
      if_neg hnb.2.2.2.2]
    simp only [hg, if_pos hwc]
  refine ⟨?_, ?_, ?_⟩
  · intro hty
    rcases hty with hty | hty
    · rw [hred, hty]
    · rw [hred, hty]
      simp only [stAtomic]
      rw [hrn, stRule_atomic_inert n g input fuel rl.expr pos _ rfl]
  · intro hty
    have heq : run (fuel + 1) g input (Req.rrule n) pos st
        = stRule n pos (fun s p1 => stAtomic Atomicity.Atomic
            (fun s2 => run fuel g input (Req.rexpr rl.expr) p1 s2) s) st := by
      rcases hty with hty | hty <;> rw [hred, hty, hrn]
    refine ⟨heq, ?_⟩
    intro hla hat p st2 h
    have h1 : (stRule n pos (fun s p1 => stAtomic Atomicity.Atomic
        (fun s2 => run fuel g input (Req.rexpr rl.expr) p1 s2) s) st).1 = Res.ok p := by
      rw [← heq, h]
    have hpd := stRule_emits n pos
      (fun s p1 => stAtomic Atomicity.Atomic
        (fun s2 => run fuel g input (Req.rexpr rl.expr) p1 s2) s) st hla hat
      (stAtomic_inv Atomicity.Atomic
        (fun s2 => run fuel g input (Req.rexpr rl.expr) pos s2) pos
        { st with queue := st.queue ++ [QToken.tokStart n pos] }
        (runI g input fuel (Req.rexpr rl.expr) pos
          { queue := st.queue ++ [QToken.tokStart n pos], stack := st.stack,
            atomicity := Atomicity.Atomic, lookahead := st.lookahead })).pd h1
    obtain ⟨delta, hd⟩ := hpd
    refine ⟨delta, ?_⟩
    rw [← hd, ← heq, h]
  · intro hty
    have heq : run (fuel + 1) g input (Req.rrule n) pos st
        = stAtomic Atomicity.CompoundAtomic
            (fun s => stRule n pos (fun s2 p1 =>
              run fuel g input (Req.rexpr rl.expr) p1 s2) s) st := by
      rw [hred, hty, hrn]
    refine ⟨heq, ?_⟩
    intro hla p st2 h
    have h1 : (stRule n pos (fun s2 p1 => run fuel g input (Req.rexpr rl.expr) p1 s2)
        { st with atomicity := Atomicity.CompoundAtomic }).1 = Res.ok p := by
      have := congrArg Prod.fst h
      rw [heq] at this
      simp only [stAtomic] at this
      exact this.symm ▸ rfl
    have hpd := stRule_emits n pos
      (fun s2 p1 => run fuel g input (Req.rexpr rl.expr) p1 s2)
      { st with atomicity := Atomicity.CompoundAtomic } hla (by simp)
      (runI g input fuel (Req.rexpr rl.expr) pos
        { queue := st.queue ++ [QToken.tokStart n pos], stack := st.stack,
          atomicity := Atomicity.CompoundAtomic, lookahead := st.lookahead }).pd h1
    obtain ⟨delta, hd⟩ := hpd
    refine ⟨delta, ?_⟩
    have hq2 : st2.queue = (stRule n pos
        (fun s2 p1 => run fuel g input (Req.rexpr rl.expr) p1 s2)
        { st with atomicity := Atomicity.CompoundAtomic }).2.queue := by
      have := congrArg (fun z => z.2.queue) h
      rw [heq] at this
      simp only [stAtomic] at this
      exact this.symm
    rw [hq2, hd]

/-- Witness for the amended claim C3 at a concrete input: a Normal
`whitespace` rule over `" "` from the initial (NonAtomic, no-lookahead)
context emits its token pair around the match. -/
theorem ws_dispatch_amended_witness :
    ∃ delta,
      (run 6 [Rule.mk "whitespace" RuleType.Normal (Expr.Str [' '])] " ".data
        (Req.rrule "whitespace") 0 initState).2.queue
      = [] ++ [QToken.tokStart "whitespace" 0] ++ delta ++ [QToken.tokEnd "whitespace" 1] := by
  have h := ((ws_dispatch_amended 5 [Rule.mk "whitespace" RuleType.Normal (Expr.Str [' '])]
      " ".data "whitespace" (Rule.mk "whitespace" RuleType.Normal (Expr.Str [' '])) 0
      initState (Or.inl rfl) (by decide)).2.1 (Or.inl rfl)).2 rfl (by decide) 1
    (ParserState.mk [QToken.tokStart "whitespace" 0, QToken.tokEnd "whitespace" 1] []
      Atomicity.NonAtomic false) (by decide)
  obtain ⟨delta, hd⟩ := h
  exact ⟨delta, by rw [show (run 6 [Rule.mk "whitespace" RuleType.Normal (Expr.Str [' '])]
    " ".data (Req.rrule "whitespace") 0 initState).2
      = ParserState.mk [QToken.tokStart "whitespace" 0, QToken.tokEnd "whitespace" 1] []
          Atomicity.NonAtomic false from by decide]; exact hd⟩

/-- Claim C4 (amended): dispatching an ordinary rule (none of the reserved
names, not `whitespace`/`comment`) of declared kind CompoundAtomic forces
`CompoundAtomic` (not `Atomic`) atomicity mode for its body — under which
nested rules still emit tokens — and still emits a token pair spanning the
rule's own match whenever the caller is outside lookahead. -/
theorem compound_atomic_amended (fuel : Nat) (g : List Rule) (input : List Char)
    (n : String) (rl : Rule) (pos : Nat) (st : ParserState)
    (h1 : n ≠ "any") (h2 : n ≠ "eoi") (h3 : n ≠ "soi") (h4 : n ≠ "peek") (h5 : n ≠ "pop")
    (h6 : n ≠ "whitespace") (h7 : n ≠ "comment")
    (hg : vmGet g n = some rl) (hty : rl.ty = RuleType.CompoundAtomic) :
    run (fuel + 1) g input (Req.rrule n) pos st
      = stAtomic Atomicity.CompoundAtomic
          (fun s => stRule n pos (fun s2 p1 =>
            run fuel g input (Req.rexpr rl.expr) p1 s2) s) st ∧
    (st.lookahead = false →
      ∀ p st2, run (fuel + 1) g input (Req.rrule n) pos st = (Res.ok p, st2) →
        ∃ delta, st2.queue
          = st.queue ++ [QToken.tokStart n pos] ++ delta ++ [QToken.tokEnd n p]) := by
  have hrn : rl.name = n := vmGet_name hg
  have hnot : ¬(rl.name = "whitespace" ∨ rl.name = "comment") := by
    rw [hrn]
    rintro (h | h)
    · exact h6 h
    · exact h7 h
  have heq : run (fuel + 1) g input (Req.rrule n) pos st
      = stAtomic Atomicity.CompoundAtomic
          (fun s => stRule n pos (fun s2 p1 =>
            run fuel g input (Req.rexpr rl.expr) p1 s2) s) st := by
    simp only [run]
    rw [if_neg h1, if_neg h2, if_neg h3, if_neg h4, if_neg h5]
    simp only [hg, if_neg hnot, hty, hrn]
    split <;> rfl
  refine ⟨heq, ?_⟩
  intro hla p st2 h
  have hok : (stRule n pos (fun s2 p1 => run fuel g input (Req.rexpr rl.expr) p1 s2)
      { st with atomicity := Atomicity.CompoundAtomic }).1 = Res.ok p := by
    have hc := congrArg Prod.fst h
    rw [heq] at hc
    simp only [stAtomic] at hc
    exact hc.symm ▸ rfl
  have hpd := stRule_emits n pos
    (fun s2 p1 => run fuel g input (Req.rexpr rl.expr) p1 s2)
    { st with atomicity := Atomicity.CompoundAtomic } hla (by simp)
    (runI g input fuel (Req.rexpr rl.expr) pos
      { queue := st.queue ++ [QToken.tokStart n pos], stack := st.stack,
        atomicity := Atomicity.CompoundAtomic, lookahead := st.lookahead }).pd hok
  obtain ⟨delta, hd⟩ := hpd
  refine ⟨delta, ?_⟩
  have hq2 : st2.queue = (stRule n pos
      (fun s2 p1 => run fuel g input (Req.rexpr rl.expr) p1 s2)
      { st with atomicity := Atomicity.CompoundAtomic }).2.queue := by
    have hc := congrArg (fun z => z.2.queue) h
    rw [heq] at hc
    simp only [stAtomic] at hc
    exact hc.symm
  rw [hq2, hd]

/-- Witness for the amended claim C4 at a concrete input: the grammar
`outer = CompoundAtomic { inner }`, `inner = Normal { "a" }` over `"a"`:
the `outer` token pair brackets the match (with the `inner` tokens in
between). -/
theorem compound_atomic_amended_witness :
    ∃ delta,
      (ParserState.mk
        [QToken.tokStart "outer" 0, QToken.tokStart "inner" 0,
         QToken.tokEnd "inner" 1, QToken.tokEnd "outer" 1]
        [] Atomicity.NonAtomic false).queue
      = [] ++ [QToken.tokStart "outer" 0] ++ delta ++ [QToken.tokEnd "outer" 1] := by
  have h := (compound_atomic_amended 19
      [Rule.mk "outer" RuleType.CompoundAtomic (Expr.Ident "inner"),
       Rule.mk "inner" RuleType.Normal (Expr.Str ['a'])] "a".data "outer"
      (Rule.mk "outer" RuleType.CompoundAtomic (Expr.Ident "inner")) 0 initState
      (by decide) (by decide) (by decide) (by decide) (by decide) (by decide) (by decide)
      (by decide) rfl).2 rfl 1
    (ParserState.mk
      [QToken.tokStart "outer" 0, QToken.tokStart "inner" 0,
       QToken.tokEnd "inner" 1, QToken.tokEnd "outer" 1]
      [] Atomicity.NonAtomic false) (by decide)
  exact h

/-! ### Claim C10: literal-decode panics. -/

theorem nlf_ok (p : Nat) : ¬ litFatal (Res.ok p) := by
  rintro (h | h | h) <;> exact Res.noConfusion h

theorem nlf_err (p : Nat) : ¬ litFatal (Res.err p) := by
  rintro (h | h | h) <;> exact Res.noConfusion h

theorem nlf_other {m : String} (h1 : m ≠ "incorrect string literal")
    (h2 : m ≠ "incorrect char literal") (h3 : m ≠ "empty char literal") :
    ¬ litFatal (Res.fatal m) := by
  rintro (h | h | h)
  · injection h with hm
    exact h1 hm
  · injection h with hm
    exact h2 hm
  · injection h with hm
    exact h3 hm

theorem nlf_res {r : Res} (h : ∀ m, r = Res.fatal m →
    m ≠ "incorrect string literal" ∧ m ≠ "incorrect char literal" ∧
    m ≠ "empty char literal") : ¬ litFatal r := by
  cases r with
  | ok p => exact nlf_ok p
  | err p => exact nlf_err p
  | fatal m =>
    obtain ⟨h1, h2, h3⟩ := h m rfl
    exact nlf_other h1 h2 h3

theorem nlf_matchString {input : List Char} {pos : Nat} {s : List Char} :
    ¬ litFatal (matchString input pos s) := by
  unfold matchString
  split
  · exact nlf_ok _
  · exact nlf_err _

theorem nlf_matchInsensitive {input : List Char} {pos : Nat} {s : List Char} :
    ¬ litFatal (matchInsensitive input pos s) := by
  unfold matchInsensitive
  split
  · exact nlf_ok _
  · exact nlf_err _

theorem nlf_matchRange {input : List Char} {pos : Nat} {lo hi : Char} :
    ¬ litFatal (matchRange input pos lo hi) := by
  unfold matchRange
  split
  · split
    · exact nlf_ok _
    · exact nlf_err _
  · exact nlf_err _

theorem nlf_posSkip {input : List Char} {pos n : Nat} :
    ¬ litFatal (posSkip input pos n) := by
  unfold posSkip
  split
  · exact nlf_ok _
  · exact nlf_err _

theorem nlf_atEnd {input : List Char} {pos : Nat} : ¬ litFatal (atEnd input pos) := by
  unfold atEnd
  split
  · exact nlf_ok _
  · exact nlf_err _

theorem nlf_atStart {pos : Nat} : ¬ litFatal (atStart pos) := by
  unfold atStart
  split
  · exact nlf_ok _
  · exact nlf_err _

theorem nlf_skipUntilRes {input : List Char} {pos : Nat} {s : List Char} :
    ¬ litFatal (skipUntilRes input pos s) := by
  unfold skipUntilRes
  split
  · exact nlf_ok _
  · exact nlf_err _

theorem nlf_skipCombine {a b : Res} (ha : ¬ litFatal a) (hb : ¬ litFatal b) :
    ¬ litFatal (skipCombine a b) := by
  cases a with
  | ok l =>
    cases b with
    | ok r =>
      simp only [skipCombine]
      split
      · exact nlf_ok _
      · exact nlf_ok _
    | err r =>
      simp only [skipCombine]
      exact nlf_ok _
    | fatal m =>
      simp only [skipCombine]
      exact hb
  | err l =>
    cases b with
    | ok r =>
      simp only [skipCombine]
      exact nlf_ok _
    | err r =>
      simp only [skipCombine]
      exact nlf_err _
    | fatal m =>
      simp only [skipCombine]
      exact hb
  | fatal m =>
    simp only [skipCombine]
    exact ha

theorem nlf_skipFold {input : List Char} {pos : Nat} (srest : List (List Char)) :
    ∀ acc : Res, ¬ litFatal acc →
      ¬ litFatal (srest.foldl (fun acc s => skipCombine acc (skipUntilRes input pos s)) acc) := by
  induction srest with
  | nil =>
    intro acc h
    exact h
  | cons s srest ih =>
    intro acc h
    simp only [List.foldl_cons]
    exact ih _ (nlf_skipCombine h nlf_skipUntilRes)

theorem nlf_stAtomic {a : Atomicity} {f : ParserState → RP} {st : ParserState}
    (hb : ¬ litFatal (f { st with atomicity := a }).1) :
    ¬ litFatal (stAtomic a f st).1 := hb

theorem nlf_stRule {n : String} {pos : Nat} {f : ParserState → Nat → RP}
    {st : ParserState} (hb : ∀ s1, ¬ litFatal (f s1 pos).1) :
    ¬ litFatal (stRule n pos f st).1 := by
  simp only [stRule]
  by_cases hc : st.lookahead = false ∧ st.atomicity ≠ Atomicity.Atomic
  · simp only [if_pos hc]
    cases hx : (f { st with queue := st.queue ++ [QToken.tokStart n pos] } pos).1 with
    | ok p =>
      simp only [hx]
      exact nlf_ok _
    | err q =>
      simp only [hx]
      exact nlf_err _
    | fatal m =>
      simp only [hx]
      have := hb { st with queue := st.queue ++ [QToken.tokStart n pos] }
      rw [hx] at this
      exact this
  · simp only [if_neg hc]
    cases hx : (f st pos).1 with
    | ok p =>
      simp only [hx]
      exact nlf_ok _
    | err q =>
      simp only [hx]
      exact nlf_err _
    | fatal m =>
      simp only [hx]
      have := hb st
      rw [hx] at this
      exact this

theorem nlf_stSeqPos {pos : Nat} {f : ParserState → RP} {st : ParserState}
    (hb : ¬ litFatal (f st).1) : ¬ litFatal (stSeqPos pos f st).1 := by
  simp only [stSeqPos]
  cases hx : (f st).1 with
  | ok p =>
    simp only [hx]
    rw [hx] at hb
    exact hb
  | err q =>
    simp only [hx]
    exact nlf_err _
  | fatal m =>
    simp only [hx]
    rw [hx] at hb
    exact hb

theorem nlf_rbind {x : RP} {f : Nat → ParserState → RP}
    (hx : ¬ litFatal x.1) (hf : ∀ p s, ¬ litFatal (f p s).1) :
    ¬ litFatal (rbind x f).1 := by
  unfold rbind
  cases h1 : x.1 with
  | ok p => exact hf p x.2
  | err q =>
    dsimp only
    rw [h1]
    exact nlf_err _
  | fatal m =>
    dsimp only
    rw [h1]
    rw [h1] at hx
    exact hx

theorem vmGet_mem {g : List Rule} {n : String} {r : Rule} (h : vmGet g n = some r) :
    r ∈ g := by
  induction g with
  | nil => cases h
  | cons a g ih =>
    unfold vmGet at h
    split at h
    · cases h
      exact List.mem_cons_of_mem a (ih (by assumption))
    · split at h
      · cases h
        exact List.mem_cons_self _ _
      · cases h

/-- Under a grammar whose literals all decode (and whose `Range` endpoints
decode to non-empty text), no evaluation ever reaches a literal-decoding
panic. -/
theorem run_no_literal_fatal (g : List Rule) (input : List Char)
    (hg : goodVm g = true) :
    ∀ fuel req pos st, goodReq req = true →
      ¬ litFatal (run fuel g input req pos st).1 := by
  intro fuel
  induction fuel with
  | zero =>
    intro req pos st hgr
    exact nlf_other (by decide) (by decide) (by decide)
  | succ fuel ih =>
    intro req pos st hgr
    cases req with
    | rrule name =>
      simp only [run]
      by_cases h1 : name = "any"
      · simp only [if_pos h1]
        exact nlf_posSkip
      simp only [if_neg h1]
      by_cases h2 : name = "eoi"
      · simp only [if_pos h2]
        exact nlf_stRule (fun s1 => nlf_atEnd)
      simp only [if_neg h2]
      by_cases h3 : name = "soi"
      · simp only [if_pos h3]
        exact nlf_atStart
      simp only [if_neg h3]
      by_cases h4 : name = "peek"
      · simp only [if_pos h4]
        cases hstk : st.stack with
        | nil =>
          simp only [hstk]
          exact nlf_other (by decide) (by decide) (by decide)
        | cons sp rest =>
          simp only [hstk]
          exact nlf_matchString
      simp only [if_neg h4]
      by_cases h5 : name = "pop"
      · simp only [if_pos h5]
        cases hstk : st.stack with
        | nil =>
          simp only [hstk]
          exact nlf_other (by decide) (by decide) (by decide)
        | cons sp rest =>
          simp only [hstk]
          cases hm : matchString input pos (spanStr input sp) with
          | ok p =>
            simp only [hm]
            exact nlf_ok _
          | err q =>
            simp only [hm]
            exact nlf_err _
          | fatal m =>
            exfalso
            unfold matchString at hm
            split at hm <;> cases hm
      simp only [if_neg h5]
      cases hgt : vmGet g name with
      | none =>
        simp only [hgt]
        exact nlf_other (by decide) (by decide) (by decide)
      | some rl =>
        simp only [hgt]
        have hge : goodExpr rl.expr = true := by
          have hm := vmGet_mem hgt
          have := List.all_eq_true.mp hg
          exact this rl hm
        have hbody : ∀ p1 : Nat, ∀ s1 : ParserState,
            ¬ litFatal (run fuel g input (Req.rexpr rl.expr) p1 s1).1 :=
          fun p1 s1 => ih (Req.rexpr rl.expr) p1 s1 hge
        by_cases hwc : rl.name = "whitespace" ∨ rl.name = "comment"
        · simp only [if_pos hwc]
          cases rl.ty with
          | Normal => exact nlf_stRule (fun s1 => nlf_stAtomic (hbody pos _))
          | Silent => exact nlf_stAtomic (hbody pos _)
          | Atomic => exact nlf_stRule (fun s1 => nlf_stAtomic (hbody pos _))
          | CompoundAtomic => exact nlf_stAtomic (nlf_stRule (fun s1 => hbody pos _))
          | NonAtomic => exact nlf_stAtomic (nlf_stRule (fun s1 => hbody pos _))
        · simp only [if_neg hwc]
          cases rl.ty with
          | Normal => exact nlf_stRule (fun s1 => hbody pos _)
          | Silent => exact hbody pos st
          | Atomic => exact nlf_stRule (fun s1 => nlf_stAtomic (hbody pos _))
          | CompoundAtomic => exact nlf_stAtomic (nlf_stRule (fun s1 => hbody pos _))
          | NonAtomic => exact nlf_stAtomic (nlf_stRule (fun s1 => hbody pos _))
    | rexpr e =>
      cases e with
      | Str s =>
        simp only [goodReq, goodExpr] at hgr
        simp only [run]
        cases hu : unescape s with
        | none =>
          rw [hu] at hgr
          cases hgr
        | some t =>
          simp only [hu]
          exact nlf_matchString
      | Insens s =>
        simp only [goodReq, goodExpr] at hgr
        simp only [run]
        cases hu : unescape s with
        | none =>
          rw [hu] at hgr
          cases hgr
        | some t =>
          simp only [hu]
          exact nlf_matchInsensitive
      | Range ls hs =>
        simp only [goodReq, goodExpr, Bool.and_eq_true] at hgr
        obtain ⟨hgl, hgh⟩ := hgr
        simp only [run]
        cases hu1 : unescape ls with
        | none =>
          rw [hu1] at hgl
          cases hgl
        | some l1 =>
          simp only [hu1]
          cases l1 with
          | nil =>
            rw [hu1] at hgl
            cases hgl
          | cons lc lt =>
            cases hu2 : unescape hs with
            | none =>
              rw [hu2] at hgh
              cases hgh
            | some h1 =>
              simp only [hu2]
              cases h1 with
              | nil =>
                rw [hu2] at hgh
                cases hgh
              | cons hc2 ht =>
                exact nlf_matchRange
      | Ident name2 =>
        simp only [run]
        exact ih (Req.rrule name2) pos st rfl
      | PosPred e1 =>
        simp only [goodReq, goodExpr] at hgr
        simp only [run]
        cases hx : (run fuel g input (Req.rexpr e1) pos { st with lookahead := true }).1 with
        | ok p =>
          simp only [hx]
          exact nlf_ok _
        | err q =>
          simp only [hx]
          exact nlf_err _
        | fatal m =>
          simp only [hx]
          have := ih (Req.rexpr e1) pos { st with lookahead := true } hgr
          rw [hx] at this
          exact this
      | NegPred e1 =>
        simp only [goodReq, goodExpr] at hgr
        simp only [run]
        cases hx : (run fuel g input (Req.rexpr e1) pos { st with lookahead := true }).1 with
        | ok p =>
          simp only [hx]
          exact nlf_err _
        | err q =>
          simp only [hx]
          exact nlf_ok _
        | fatal m =>
          simp only [hx]
          have := ih (Req.rexpr e1) pos { st with lookahead := true } hgr
          rw [hx] at this
          exact this
      | Seq l r =>
        simp only [goodReq, goodExpr, Bool.and_eq_true] at hgr
        simp only [run]
        exact nlf_stSeqPos (nlf_rbind (ih _ _ _ hgr.1) (fun p s =>
          nlf_rbind (ih Req.rskip p s rfl) (fun p2 s2 => ih _ _ _ hgr.2)))
      | Choice l r =>
        simp only [goodReq, goodExpr, Bool.and_eq_true] at hgr
        simp only [run]
        cases hx : (run fuel g input (Req.rexpr l) pos st).1 with
        | ok p =>
          simp only [hx]
          have := ih (Req.rexpr l) pos st hgr.1
          rw [hx] at this
          exact this
        | err ep =>
          simp only [hx]
          exact ih (Req.rexpr r) ep _ hgr.2
        | fatal m =>
          simp only [hx]
          have := ih (Req.rexpr l) pos st hgr.1
          rw [hx] at this
          exact this
      | Opt e1 =>
        simp only [goodReq, goodExpr] at hgr
        simp only [run]
        cases hx : (run fuel g input (Req.rexpr e1) pos st).1 with
        | ok p =>
          simp only [hx]
          have := ih (Req.rexpr e1) pos st hgr
          rw [hx] at this
          exact this
        | err q =>
          simp only [hx]
          exact nlf_ok _
        | fatal m =>
          simp only [hx]
          have := ih (Req.rexpr e1) pos st hgr
          rw [hx] at this
          exact this
      | Rep e1 =>
        simp only [goodReq, goodExpr] at hgr
        simp only [run]
        exact ih (Req.rrep e1 none none) pos st hgr
      | RepOnce e1 =>
        simp only [goodReq, goodExpr] at hgr
        simp only [run]
        exact ih (Req.rrep e1 (some 1) none) pos st hgr
      | RepExact e1 n2 =>
        simp only [goodReq, goodExpr] at hgr
        simp only [run]
        exact ih (Req.rrep e1 (some n2) (some n2)) pos st hgr
      | RepMin e1 n2 =>
        simp only [goodReq, goodExpr] at hgr
        simp only [run]
        exact ih (Req.rrep e1 (some n2) none) pos st hgr
      | RepMax e1 n2 =>
        simp only [goodReq, goodExpr] at hgr
        simp only [run]
        exact ih (Req.rrep e1 none (some n2)) pos st hgr
      | RepMinMax e1 mn2 mx2 =>
        simp only [goodReq, goodExpr] at hgr
        simp only [run]
        exact ih (Req.rrep e1 (some mn2) (some mx2)) pos st hgr
      | Push e1 =>
        simp only [goodReq, goodExpr] at hgr
        simp only [run]
        cases hx : (run fuel g input (Req.rexpr e1) pos st).1 with
        | ok p =>
          simp only [hx]
          exact nlf_ok _
        | err q =>
          simp only [hx]
          have := ih (Req.rexpr e1) pos st hgr
          rw [hx] at this
          exact this
        | fatal m =>
          simp only [hx]
          have := ih (Req.rexpr e1) pos st hgr
          rw [hx] at this
          exact this
      | SkipE ss =>
        simp only [run]
        cases ss with
        | nil => exact nlf_other (by decide) (by decide) (by decide)
        | cons s0 srest => exact nlf_skipFold srest _ nlf_skipUntilRes
    | rrep e mn mx =>
      simp only [goodReq] at hgr
      have hopt : goodExpr (Expr.Opt e) = true := hgr
      cases mn with
      | none =>
        simp only [run]
        exact nlf_stSeqPos (nlf_rbind (ih (Req.rexpr (Expr.Opt e)) pos st hopt)
          (fun p s => ih (Req.rloop e mx 1) p s hgr))
      | some m =>
        simp only [run]
        by_cases h0 : 0 < m
        · simp only [if_pos h0]
          exact nlf_stSeqPos (nlf_rbind (nlf_rbind (ih (Req.rexpr e) pos st hgr)
            (fun p s => ih (Req.rchain e (m - 1)) p s hgr))
            (fun p s => ih (Req.rloop e mx 1) p s hgr))
        · simp only [if_neg h0]
          exact nlf_stSeqPos (nlf_rbind (ih (Req.rexpr (Expr.Opt e)) pos st hopt)
            (fun p s => ih (Req.rloop e mx 1) p s hgr))
    | rchain e k =>
      simp only [goodReq] at hgr
      cases k with
      | zero =>
        simp only [run]
        exact nlf_ok _
      | succ k2 =>
        simp only [run]
        exact nlf_rbind (ih Req.rskip pos st rfl) (fun p s =>
          nlf_rbind (ih (Req.rexpr e) p s hgr) (fun p2 s2 =>
            ih (Req.rchain e k2) p2 s2 hgr))
    | rloop e mx times =>
      simp only [goodReq] at hgr
      have hx : ¬ litFatal ((rbind (run fuel g input Req.rskip pos st) (fun p st =>
          run fuel g input (Req.rexpr e) p st)).1) :=
        nlf_rbind (ih Req.rskip pos st rfl) (fun p s => ih (Req.rexpr e) p s hgr)
      cases mx with
      | some m =>
        simp only [run]
        by_cases hts : times ≥ m
        · simp only [if_pos hts]
          exact nlf_ok _
        · simp only [if_neg hts]
          cases hl : (rbind (run fuel g input Req.rskip pos st) (fun p st =>
              run fuel g input (Req.rexpr e) p st)).1 with
          | ok p =>
            simp only [hl]
            exact ih (Req.rloop e (some m) (times + 1)) p _ hgr
          | err q =>
            simp only [hl]
            exact nlf_ok _
          | fatal m2 =>
            simp only [hl]
            rw [hl] at hx
            exact hx
      | none =>
        simp only [run]
        cases hl : (rbind (run fuel g input Req.rskip pos st) (fun p st =>
            run fuel g input (Req.rexpr e) p st)).1 with
        | ok p =>
          simp only [hl]
          exact ih (Req.rloop e none (times + 1)) p _ hgr
        | err q =>
          simp only [hl]
          exact nlf_ok _
        | fatal m2 =>
          simp only [hl]
          rw [hl] at hx
          exact hx
    | rskip =>
      simp only [run]
      cases hw : (vmGet g "whitespace").isSome with
      | false =>
        cases hc : (vmGet g "comment").isSome with
        | false =>
          simp only [hw, hc]
          exact nlf_ok _
        | true =>
          simp only [hw, hc]
          by_cases ha : st.atomicity = Atomicity.NonAtomic
          · simp only [if_pos ha]
            exact ih (Req.rposRepeat (Req.rrule "comment")) pos st rfl
          · simp only [if_neg ha]
            exact nlf_ok _
      | true =>
        cases hc : (vmGet g "comment").isSome with
        | false =>
          simp only [hw, hc]
          by_cases ha : st.atomicity = Atomicity.NonAtomic
          · simp only [if_pos ha]
            exact ih (Req.rposRepeat (Req.rrule "whitespace")) pos st rfl
          · simp only [if_neg ha]
            exact nlf_ok _
        | true =>
          simp only [hw, hc]
          by_cases ha : st.atomicity = Atomicity.NonAtomic
          · simp only [if_pos ha]
            exact nlf_stSeqPos (nlf_rbind
              (ih (Req.rposRepeat (Req.rrule "whitespace")) pos st rfl)
              (fun p s => ih (Req.rposRepeat Req.rcws) p s rfl))
          · simp only [if_neg ha]
            exact nlf_ok _
    | rposRepeat inner =>
      simp only [goodReq] at hgr
      simp only [run]
      cases hx : (run fuel g input inner pos st).1 with
      | ok p =>
        simp only [hx]
        by_cases hpp : p = pos
        · simp only [if_pos hpp]
          exact nlf_ok _
        · simp only [if_neg hpp]
          exact ih (Req.rposRepeat inner) p _ hgr
      | err q =>
        simp only [hx]
        exact nlf_ok _
      | fatal m =>
        simp only [hx]
        have := ih inner pos st hgr
        rw [hx] at this
        exact this
    | rcws =>
      simp only [run]
      exact nlf_stSeqPos (nlf_rbind (ih (Req.rrule "comment") pos st rfl)
        (fun p s => ih (Req.rposRepeat (Req.rrule "whitespace")) p s rfl))

/-- Claim C10: a `Literal`, `LiteralInsensitive` or `CharRange` node whose
raw text fails to decode (or whose `CharRange` endpoint decodes to the
empty string) evaluates to a fatal error — the panic channel — never to
ordinary success or backtracking failure; and conversely, when every
literal of the grammar and of the evaluated expression decodes (with
non-empty `CharRange` endpoints), the literal-decoding fatal outcomes are
unreachable. -/
theorem literal_fatal_spec (fuel : Nat) (g : List Rule) (input : List Char)
    (pos : Nat) (st : ParserState) :
    (∀ s, unescape s = none →
      run (fuel + 1) g input (Req.rexpr (Expr.Str s)) pos st
        = (Res.fatal "incorrect string literal", st) ∧
      run (fuel + 1) g input (Req.rexpr (Expr.Insens s)) pos st
        = (Res.fatal "incorrect string literal", st)) ∧
    (∀ ls hs, unescape ls = none →
      run (fuel + 1) g input (Req.rexpr (Expr.Range ls hs)) pos st
        = (Res.fatal "incorrect char literal", st)) ∧
    (∀ ls hs, unescape ls = some [] →
      run (fuel + 1) g input (Req.rexpr (Expr.Range ls hs)) pos st
        = (Res.fatal "empty char literal", st)) ∧
    (∀ ls hs lc lt, unescape ls = some (lc :: lt) → unescape hs = none →
      run (fuel + 1) g input (Req.rexpr (Expr.Range ls hs)) pos st
        = (Res.fatal "incorrect char literal", st)) ∧
    (∀ ls hs lc lt, unescape ls = some (lc :: lt) → unescape hs = some [] →
      run (fuel + 1) g input (Req.rexpr (Expr.Range ls hs)) pos st
        = (Res.fatal "empty char literal", st)) ∧
    (goodVm g = true → ∀ e, goodExpr e = true →
      ¬ litFatal (run fuel g input (Req.rexpr e) pos st).1) := by
  refine ⟨?_, ?_, ?_, ?_, ?_, ?_⟩
  · intro s h
    constructor <;> simp only [run, h]
  · intro ls hs h
    simp only [run, h]
  · intro ls hs h
    simp only [run, h]
  · intro ls hs lc lt h1 h2
    simp only [run, h1, h2]
  · intro ls hs lc lt h1 h2
    simp only [run, h1, h2]
  · intro hg e hge
    exact run_no_literal_fatal g input hg fuel (Req.rexpr e) pos st hge

/-- Witness for claim C10 at concrete inputs: the undecodable literal
`\w` evaluates to the fatal channel, and over a well-decoding grammar the
evaluation of `"a" | "b"` on `"b"` is free of literal-decoding fatals. -/
theorem literal_fatal_spec_witness :
    run 3 [] "a".data (Req.rexpr (Expr.Str ['\\', 'w'])) 0 initState
      = (Res.fatal "incorrect string literal", initState) ∧
    ¬ litFatal (run 3 [] "b".data
        (Req.rexpr (Expr.Choice (Expr.Str ['a']) (Expr.Str ['b']))) 0 initState).1 := by
  constructor
  · exact ((literal_fatal_spec 2 [] "a".data 0 initState).1 ['\\', 'w'] (by decide)).1
  · exact (literal_fatal_spec 3 [] "b".data 0 initState).2.2.2.2.2 rfl
      (Expr.Choice (Expr.Str ['a']) (Expr.Str ['b'])) (by decide)

/-- Claim C4 (counterexample): for the grammar `outer = CompoundAtomic
{ inner }`, `inner = Normal { "a" }` over input `"a"`, the code's dispatch
of `outer` forces `CompoundAtomic` (not `Atomic`) mode, observably: the
nested `inner` rule still emits its token.  Forcing `Atomic` mode as the
claim states (spec-modelled `dispatchCompoundSpec`) would suppress the
inner token.  The two results differ at this concrete input. -/
theorem compound_atomic_cex :
    run 20 [Rule.mk "outer" RuleType.CompoundAtomic (Expr.Ident "inner"),
            Rule.mk "inner" RuleType.Normal (Expr.Str ['a'])] "a".data
        (Req.rrule "outer") 0 initState
      = (Res.ok 1,
         ParserState.mk
           [QToken.tokStart "outer" 0, QToken.tokStart "inner" 0,
            QToken.tokEnd "inner" 1, QToken.tokEnd "outer" 1]
           [] Atomicity.NonAtomic false) ∧
    dispatchCompoundSpec 20
        [Rule.mk "outer" RuleType.CompoundAtomic (Expr.Ident "inner"),
         Rule.mk "inner" RuleType.Normal (Expr.Str ['a'])] "a".data
        (Rule.mk "outer" RuleType.CompoundAtomic (Expr.Ident "inner")) 0 initState
      = (Res.ok 1,
         ParserState.mk [QToken.tokStart "outer" 0, QToken.tokEnd "outer" 1]
           [] Atomicity.NonAtomic false) := by
  refine ⟨?_, ?_⟩ <;> decide

end PestVm
